import Mathlib

/-!
Verification of the two release-maintenance scripts of the Colota monorepo
(`scripts/bump-version.py` and `scripts/sync-screenshots.py`) against their
natural-language specification.

The scripts are shallowly embedded: file contents are `List Char` (for text)
or `List Nat` (for image bytes), directories are association lists from file
names to contents, and each script's `main` is a pure function from a
filesystem state to an exit code plus a new state.  Python library behaviour
that the scripts rely on is embedded as well:

* `re.match(r"^\d+\.\d+\.\d+$", v)` — including the CPython semantics of `$`,
  which also matches just before one trailing newline.  `\d` is modelled as
  the ASCII digits (the scripts are only ever run on ASCII version strings).
* `re.search`/`re.sub` for the two build.gradle patterns
  `versionName "(.+?)"` (non-greedy, `.` excludes newline) and
  `versionCode (\d+)` (greedy), with leftmost scanning and
  replace-all-occurrences semantics for `re.sub`.
* `json.loads` / `json.dumps(..., indent=n, ensure_ascii=False)` — a JSON
  document model with objects as insertion-ordered association lists
  (duplicate keys collapse onto the first occurrence, last value wins,
  exactly as for a Python `dict`), strings with the standard escapes, and
  numbers restricted to integers (floats are out of scope of this model).
* `pathlib.Path.glob("*.png")` + `sorted` — the files whose name ends in
  `.png`, in lexicographic order; `shutil.copy2` — content copy
  (metadata/timestamps are not modelled); `filecmp.cmp(..., shallow=False)` —
  byte equality (skipping the copy when contents already agree is
  indistinguishable from copying in this model).

Printing to stdout is not modelled, except for the per-file warnings of the
screenshot-sync store loop, which one claim mentions explicitly.
-/

namespace Colota

/-! ### Decimal digit strings -/

/-- Value of an ASCII digit character. -/
def digitVal (c : Char) : Nat := c.toNat - '0'.toNat

/-- Numeric value of a digit string (most significant first). -/
def natOfDigits (l : List Char) : Nat := l.foldl (fun a c => 10 * a + digitVal c) 0

/-- Most-significant-first digit expansion, by well-founded recursion (the
reference version used in proofs). -/
def natDigitsWF (n : Nat) : List Char :=
  if h : n < 10 then [Char.ofNat (48 + n)]
  else natDigitsWF (n / 10) ++ [Char.ofNat (48 + n % 10)]
termination_by n
decreasing_by exact Nat.div_lt_self (by omega) (by omega)

/-- Fuel-driven digit expansion (structural, so the kernel can evaluate it). -/
def natToDigitsGo : Nat → Nat → List Char → List Char
  | 0, _, acc => acc
  | fuel + 1, n, acc =>
    if n < 10 then Char.ofNat (48 + n) :: acc
    else natToDigitsGo fuel (n / 10) (Char.ofNat (48 + n % 10) :: acc)

/-- Decimal digit characters of `n`, most significant first (the output of
Python's `str`/`format` on a nonnegative int). -/
def natToDigits (n : Nat) : List Char := natToDigitsGo (n + 1) n []

theorem natToDigitsGo_eq (fuel : Nat) : ∀ n acc, n < fuel →
    natToDigitsGo fuel n acc = natDigitsWF n ++ acc := by
  induction fuel with
  | zero => omega
  | succ fuel ih =>
    intro n acc h
    by_cases h10 : n < 10
    · rw [natToDigitsGo, if_pos h10, natDigitsWF, dif_pos h10]
      rfl
    · rw [natToDigitsGo, if_neg h10, ih (n / 10) _ (by omega)]
      rw [show natDigitsWF n = natDigitsWF (n / 10) ++ [Char.ofNat (48 + n % 10)] from by
        rw [natDigitsWF]
        rw [dif_neg h10]]
      simp

theorem natToDigits_eq (n : Nat) : natToDigits n = natDigitsWF n := by
  rw [natToDigits, natToDigitsGo_eq (n + 1) n [] (Nat.lt_succ_self n), List.append_nil]

theorem digit_char_spec (m : Nat) (h : m < 10) :
    (Char.ofNat (48 + m)).isDigit = true ∧ digitVal (Char.ofNat (48 + m)) = m ∧
      (Char.ofNat (48 + m)) ≠ '"' ∧ (Char.ofNat (48 + m)) ≠ '\n' ∧
      (Char.ofNat (48 + m)) ≠ 'v' ∧ (Char.ofNat (48 + m)) ≠ '.' := by
  interval_cases m <;> refine ⟨by decide, by decide, by decide, by decide, by decide, by decide⟩

theorem natToDigits_ne_nil (n : Nat) : natToDigits n ≠ [] := by
  rw [natToDigits_eq, natDigitsWF]
  split <;> simp

theorem natToDigits_all_digit (n : Nat) : ∀ c ∈ natToDigits n, c.isDigit = true := by
  rw [natToDigits_eq]
  induction n using Nat.strong_induction_on with
  | _ n ih =>
    rw [natDigitsWF]
    split
    · intro c hc
      rw [List.mem_singleton] at hc
      subst hc
      exact (digit_char_spec n (by omega)).1
    · intro c hc
      rw [List.mem_append] at hc
      rcases hc with hc | hc
      · exact ih (n / 10) (Nat.div_lt_self (by omega) (by omega)) c hc
      · rw [List.mem_singleton] at hc
        subst hc
        exact (digit_char_spec (n % 10) (Nat.mod_lt _ (by omega))).1

theorem natOfDigits_append_one (l : List Char) (c : Char) :
    natOfDigits (l ++ [c]) = 10 * natOfDigits l + digitVal c := by
  simp [natOfDigits, List.foldl_append]

theorem natOfDigits_natToDigits (n : Nat) : natOfDigits (natToDigits n) = n := by
  rw [natToDigits_eq]
  induction n using Nat.strong_induction_on with
  | _ n ih =>
    rw [natDigitsWF]
    split
    · rename_i h
      show natOfDigits [Char.ofNat (48 + n)] = n
      simp [natOfDigits, (digit_char_spec n h).2.1]
    · rename_i h
      rw [natOfDigits_append_one, ih (n / 10) (Nat.div_lt_self (by omega) (by omega)),
        (digit_char_spec (n % 10) (Nat.mod_lt _ (by omega))).2.1]
      omega

/-! ### Generic association-list directories / objects -/

/-- Insert-or-update for an insertion-ordered association list: the semantics of
`d[k] = v` on a Python `dict`, and of writing file `k` in a directory. -/
def insertKey {α : Type} (d : List (List Char × α)) (k : List Char) (v : α) :
    List (List Char × α) :=
  match d with
  | [] => [(k, v)]
  | (k', v') :: rest => if k' = k then (k', v) :: rest else (k', v') :: insertKey rest k v

/-- Lookup in an association list (`dict` access / reading a file). -/
def lookupKey {α : Type} (d : List (List Char × α)) (k : List Char) : Option α :=
  match d with
  | [] => none
  | (k', v') :: rest => if k' = k then some v' else lookupKey rest k

theorem lookupKey_insertKey_self {α : Type} (d : List (List Char × α)) (k : List Char) (v : α) :
    lookupKey (insertKey d k v) k = some v := by
  induction d with
  | nil => simp [insertKey, lookupKey]
  | cons p rest ih =>
    obtain ⟨k', v'⟩ := p
    by_cases h : k' = k <;> simp [insertKey, lookupKey, h, ih]

theorem lookupKey_insertKey_other {α : Type} (d : List (List Char × α)) (k k' : List Char)
    (v : α) (h : k ≠ k') : lookupKey (insertKey d k v) k' = lookupKey d k' := by
  induction d with
  | nil => simp [insertKey, lookupKey, h]
  | cons p rest ih =>
    obtain ⟨k0, v0⟩ := p
    by_cases h0 : k0 = k
    · subst h0
      simp [insertKey, lookupKey, h]
    · simp only [insertKey, if_neg h0]
      by_cases h1 : k0 = k' <;> simp [lookupKey, h1, ih]

theorem insertKey_keys {α : Type} (d : List (List Char × α)) (k : List Char) (v : α) :
    (insertKey d k v).map Prod.fst = d.map Prod.fst ∨
      (insertKey d k v).map Prod.fst = d.map Prod.fst ++ [k] := by
  induction d with
  | nil => right; simp [insertKey]
  | cons p rest ih =>
    obtain ⟨k0, v0⟩ := p
    by_cases h0 : k0 = k
    · left; simp [insertKey, h0]
    · rcases ih with ih | ih
      · left; simp [insertKey, if_neg h0, ih]
      · right; simp [insertKey, if_neg h0, ih]

/-- Writing a value already stored at the key leaves the list unchanged. -/
theorem insertKey_no_change {α : Type} (d : List (List Char × α)) (k : List Char) (v : α)
    (h : lookupKey d k = some v) : insertKey d k v = d := by
  induction d with
  | nil => simp [lookupKey] at h
  | cons p rest ih =>
    obtain ⟨k0, v0⟩ := p
    by_cases h0 : k0 = k
    · simp only [lookupKey, if_pos h0] at h
      cases h
      simp [insertKey, h0]
    · simp only [lookupKey, if_neg h0] at h
      simp [insertKey, if_neg h0, ih h]

/-! ### sync-screenshots.py -/

/-- File contents: a byte sequence.  `shutil.copy2` copies content
(metadata/timestamps are not modelled); `filecmp.cmp(shallow := False)` is byte
equality. -/
abbrev Content := List Nat

/-- A directory: an association list from file name to content. -/
abbrev Dir := List (List Char × Content)

/-- Name ends in `.png` — the files matched by `glob("*.png")`. -/
def endsWithPng (n : List Char) : Bool := n.reverse.take 4 = ['g', 'n', 'p', '.']

/-- Lexicographic order on names (Python `sorted` on same-directory paths). -/
def nameLe : List Char → List Char → Bool
  | [], _ => true
  | _ :: _, [] => false
  | a :: as, b :: bs => if a < b then true else if b < a then false else nameLe as bs

/-- `sorted(SRC.glob("*.png"))`: the `.png` entries of the source directory in
lexicographic name order. -/
def sortedPngs (src : Dir) : List (List Char × Content) :=
  (src.filter fun p => endsWithPng p.1).mergeSort fun p q => nameLe p.1 q.1

/-- The docs loop: copy every `.png` under its own name. -/
def syncDocs (src : Dir) (docs : Dir) : Dir :=
  (sortedPngs src).foldl (fun d p => insertKey d p.1 p.2) docs

/-- The fixed store ordering table (`STORE_ORDER`). -/
def STORE_ORDER : List (List Char) :=
  ["Dashboard.png".data, "LocationHistory.png".data, "TripDetails.png".data,
    "Trips.png".data, "Settings.png".data, "TrackingProfiles.png".data,
    "Authentication.png".data, "DarkMode.png".data]

/-- `enumerate(STORE_ORDER, start=1)`. -/
def storeEntries : List (Nat × List Char) := STORE_ORDER.enum.map fun p => (p.1 + 1, p.2)

/-- `f"{i}.png"`. -/
def numName (i : Nat) : List Char := natToDigits i ++ ['.', 'p', 'n', 'g']

/-- One iteration of the store loop: copy the named source file to `i.png`, or
record a warning when it is missing. -/
def storeStep (src : Dir) (acc : Dir × List (List Char)) (e : Nat × List Char) :
    Dir × List (List Char) :=
  match lookupKey src e.2 with
  | none => (acc.1, acc.2 ++ [e.2])
  | some c => (insertKey acc.1 (numName e.1) c, acc.2)

/-- The store loop over the whole table: final store directory plus the list of
warned-about (missing) names. -/
def syncStore (src : Dir) (store : Dir) : Dir × List (List Char) :=
  storeEntries.foldl (storeStep src) (store, [])

/-- The filesystem state `sync-screenshots.py` operates on.  `docs`/`store` are
`none` when the destination directory does not exist yet. -/
structure SyncState where
  srcExists : Bool
  src : Dir
  docs : Option Dir
  store : Option Dir
deriving DecidableEq

/-- Exit code, warnings printed by the store loop, final state. -/
structure SyncResult where
  exitCode : Nat
  warnings : List (List Char)
  state : SyncState
deriving DecidableEq

/-- `main` of sync-screenshots.py: bail out (exit 1) when the source directory
is missing; otherwise create the destinations if needed (`mkdir(parents=True,
exist_ok=True)` turns an absent directory into an empty one) and run the docs
and store loops. -/
def syncMain (s : SyncState) : SyncResult :=
  if s.srcExists = false then ⟨1, [], s⟩
  else
    let docsDir := syncDocs s.src (s.docs.getD [])
    let st := syncStore s.src (s.store.getD [])
    ⟨0, st.2, ⟨s.srcExists, s.src, some docsDir, some st.1⟩⟩

/-! ### Fold lemmas for the two sync loops -/

theorem foldl_insert_lookup_not_mem (l : List (List Char × Content)) (d : Dir) (n : List Char)
    (h : ∀ p ∈ l, p.1 ≠ n) :
    lookupKey (l.foldl (fun d p => insertKey d p.1 p.2) d) n = lookupKey d n := by
  induction l generalizing d with
  | nil => rfl
  | cons p rest ih =>
    rw [List.foldl_cons, ih _ fun q hq => h q (List.mem_cons_of_mem _ hq),
      lookupKey_insertKey_other _ _ _ _ (h p (List.mem_cons_self _ _))]

theorem foldl_insert_lookup_mem (l : List (List Char × Content)) (d : Dir) (n : List Char)
    (c : Content) (hnd : (l.map Prod.fst).Nodup) (hmem : (n, c) ∈ l) :
    lookupKey (l.foldl (fun d p => insertKey d p.1 p.2) d) n = some c := by
  induction l generalizing d with
  | nil => cases hmem
  | cons p rest ih =>
    rw [List.map_cons, List.nodup_cons] at hnd
    rcases List.mem_cons.mp hmem with h | h
    · subst h
      rw [List.foldl_cons,
        foldl_insert_lookup_not_mem _ _ _ fun q hq hqn => by
          have hq1 : q.1 ∈ List.map Prod.fst rest := List.mem_map_of_mem Prod.fst hq
          rw [hqn] at hq1
          exact hnd.1 hq1,
        lookupKey_insertKey_self]
    · exact ih _ hnd.2 h

/-- The directory component of one store-loop iteration. -/
def storeDirStep (src : Dir) (d : Dir) (e : Nat × List Char) : Dir :=
  match lookupKey src e.2 with
  | none => d
  | some c => insertKey d (numName e.1) c

theorem storeFold_fst (entries : List (Nat × List Char)) (src : Dir) (d : Dir)
    (w : List (List Char)) :
    (entries.foldl (storeStep src) (d, w)).1 = entries.foldl (storeDirStep src) d := by
  induction entries generalizing d w with
  | nil => rfl
  | cons e rest ih =>
    rw [List.foldl_cons, List.foldl_cons]
    unfold storeStep storeDirStep
    cases lookupKey src e.2 <;> exact ih _ _

theorem storeFold_warn_mono (entries : List (Nat × List Char)) (src : Dir) (d : Dir)
    (w : List (List Char)) (a : List Char) (ha : a ∈ w) :
    a ∈ (entries.foldl (storeStep src) (d, w)).2 := by
  induction entries generalizing d w with
  | nil => exact ha
  | cons e rest ih =>
    rw [List.foldl_cons]
    unfold storeStep
    cases lookupKey src e.2
    · exact ih _ _ (List.mem_append_left _ ha)
    · exact ih _ _ ha

theorem storeFold_warn (entries : List (Nat × List Char)) (src : Dir) (d : Dir)
    (w : List (List Char)) (i : Nat) (name : List Char) (hm : (i, name) ∈ entries)
    (habs : lookupKey src name = none) :
    name ∈ (entries.foldl (storeStep src) (d, w)).2 := by
  induction entries generalizing d w with
  | nil => cases hm
  | cons e rest ih =>
    rw [List.foldl_cons]
    rcases List.mem_cons.mp hm with h | h
    · subst h
      unfold storeStep
      rw [habs]
      exact storeFold_warn_mono _ _ _ _ _ (List.mem_append_right _ (List.mem_singleton_self _))
    · unfold storeStep
      cases lookupKey src e.2 <;> exact ih _ _ h

theorem storeFold_snd_indep (entries : List (Nat × List Char)) (src : Dir) (d d' : Dir)
    (w : List (List Char)) :
    (entries.foldl (storeStep src) (d, w)).2 = (entries.foldl (storeStep src) (d', w)).2 := by
  induction entries generalizing d d' w with
  | nil => rfl
  | cons e rest ih =>
    rw [List.foldl_cons, List.foldl_cons]
    unfold storeStep
    cases lookupKey src e.2 <;> exact ih _ _ _

theorem storeDirFold_frame (entries : List (Nat × List Char)) (src : Dir) (d : Dir)
    (n : List Char) (h : ∀ e ∈ entries, lookupKey src e.2 ≠ none → numName e.1 ≠ n) :
    lookupKey (entries.foldl (storeDirStep src) d) n = lookupKey d n := by
  induction entries generalizing d with
  | nil => rfl
  | cons e rest ih =>
    rw [List.foldl_cons, ih _ fun q hq => h q (List.mem_cons_of_mem _ hq)]
    unfold storeDirStep
    cases hsrc : lookupKey src e.2 with
    | none => rfl
    | some c =>
      exact lookupKey_insertKey_other _ _ _ _
        (h e (List.mem_cons_self _ _) (by rw [hsrc]; exact fun hc => Option.noConfusion hc))

theorem storeDirFold_mem_some (entries : List (Nat × List Char)) (src : Dir) (d : Dir)
    (i : Nat) (name : List Char) (c : Content) (hm : (i, name) ∈ entries)
    (hnd : (entries.map fun e => numName e.1).Nodup) (hc : lookupKey src name = some c) :
    lookupKey (entries.foldl (storeDirStep src) d) (numName i) = some c := by
  induction entries generalizing d with
  | nil => cases hm
  | cons e rest ih =>
    rw [List.map_cons, List.nodup_cons] at hnd
    rcases List.mem_cons.mp hm with h | h
    · subst h
      rw [List.foldl_cons,
        storeDirFold_frame _ _ _ _ fun q hq _ hqn => by
          refine hnd.1 ?_
          rw [← hqn]
          exact List.mem_map_of_mem (fun e => numName e.1) hq]
      unfold storeDirStep
      rw [hc, lookupKey_insertKey_self]
    · rw [List.foldl_cons]
      exact ih _ h hnd.2

theorem storeDirFold_mem_none (entries : List (Nat × List Char)) (src : Dir) (d : Dir)
    (i : Nat) (name : List Char) (hm : (i, name) ∈ entries)
    (hnd : (entries.map fun e => numName e.1).Nodup) (hc : lookupKey src name = none) :
    lookupKey (entries.foldl (storeDirStep src) d) (numName i) =
      lookupKey d (numName i) := by
  induction entries generalizing d with
  | nil => cases hm
  | cons e rest ih =>
    rw [List.map_cons, List.nodup_cons] at hnd
    rcases List.mem_cons.mp hm with h | h
    · subst h
      rw [List.foldl_cons,
        storeDirFold_frame _ _ _ _ fun q hq _ hqn => by
          refine hnd.1 ?_
          rw [← hqn]
          exact List.mem_map_of_mem (fun e => numName e.1) hq]
      unfold storeDirStep
      rw [hc]
    · rw [List.foldl_cons]
      rw [ih _ h hnd.2]
      unfold storeDirStep
      cases hsrc : lookupKey src e.2 with
      | none => rfl
      | some c' =>
        refine lookupKey_insertKey_other _ _ _ _ fun hne => hnd.1 ?_
        exact hne ▸ List.mem_map_of_mem (fun e => numName e.1) h

theorem foldl_insert_noop (l : List (List Char × Content)) (d : Dir)
    (h : ∀ p ∈ l, lookupKey d p.1 = some p.2) :
    l.foldl (fun d p => insertKey d p.1 p.2) d = d := by
  induction l with
  | nil => rfl
  | cons p rest ih =>
    rw [List.foldl_cons, insertKey_no_change _ _ _ (h p (List.mem_cons_self _ _))]
    exact ih fun q hq => h q (List.mem_cons_of_mem _ hq)

theorem storeDirFold_noop (entries : List (Nat × List Char)) (src : Dir) (d : Dir)
    (h : ∀ e ∈ entries, ∀ c, lookupKey src e.2 = some c → lookupKey d (numName e.1) = some c) :
    entries.foldl (storeDirStep src) d = d := by
  induction entries with
  | nil => rfl
  | cons e rest ih =>
    rw [List.foldl_cons]
    have hstep : storeDirStep src d e = d := by
      unfold storeDirStep
      cases hsrc : lookupKey src e.2 with
      | none => rfl
      | some c => exact insertKey_no_change _ _ _ (h e (List.mem_cons_self _ _) c hsrc)
    rw [hstep]
    exact ih fun q hq => h q (List.mem_cons_of_mem _ hq)

theorem sortedPngs_keys_nodup (src : Dir) (hnd : (src.map Prod.fst).Nodup) :
    ((sortedPngs src).map Prod.fst).Nodup := by
  have hperm : (sortedPngs src).Perm (src.filter fun p => endsWithPng p.1) :=
    List.mergeSort_perm _ _
  refine (hperm.map Prod.fst).nodup_iff.mpr ?_
  exact hnd.sublist ((List.filter_sublist src).map Prod.fst)

theorem mem_sortedPngs (src : Dir) (n : List Char) (c : Content) (hmem : (n, c) ∈ src)
    (hpng : endsWithPng n = true) : (n, c) ∈ sortedPngs src := by
  have hperm : (sortedPngs src).Perm (src.filter fun p => endsWithPng p.1) :=
    List.mergeSort_perm _ _
  exact hperm.mem_iff.mpr (List.mem_filter.mpr ⟨hmem, hpng⟩)

theorem sortedPngs_mem_src (src : Dir) (p : List Char × Content) (h : p ∈ sortedPngs src) :
    p ∈ src ∧ endsWithPng p.1 = true := by
  have hperm : (sortedPngs src).Perm (src.filter fun p => endsWithPng p.1) :=
    List.mergeSort_perm _ _
  have := hperm.mem_iff.mp h
  exact ⟨(List.mem_filter.mp this).1, (List.mem_filter.mp this).2⟩

theorem mem_storeEntries (i : Nat) (name : List Char) (h : STORE_ORDER[i]? = some name) :
    (i + 1, name) ∈ storeEntries := by
  unfold storeEntries
  have hmem : ((i, name) : Nat × List Char) ∈ STORE_ORDER.enum :=
    List.mem_enum_iff_getElem?.mpr h
  exact List.mem_map_of_mem (fun p : Nat × List Char => (p.1 + 1, p.2)) hmem

theorem storeEntries_numName_nodup : (storeEntries.map fun e => numName e.1).Nodup := by
  decide

/-! ### Claims C5, C6, C8, C9, C10 (sync-screenshots.py) -/

theorem syncMain_run (s : SyncState) (hsrc : s.srcExists = true) :
    syncMain s =
      ⟨0, (syncStore s.src (s.store.getD [])).2,
        ⟨s.srcExists, s.src, some (syncDocs s.src (s.docs.getD [])),
          some (syncStore s.src (s.store.getD [])).1⟩⟩ := by
  rw [syncMain, if_neg (by rw [hsrc]; exact fun h => Bool.noConfusion h)]

/-- C5: for every entry `(i, filename)` of the fixed store ordering table:
the run exits 0 regardless; if the named file is present in the source, the
store file `(i+1).png` ends up byte-identical to it; if it is absent, the
store file `(i+1).png` is left exactly as it was (absent directories behaving
as empty) and a warning naming the file is recorded.  Positions come from the
table index alone, so missing earlier entries do not shift later ones. -/
theorem claim_C5 (s : SyncState) (i : Nat) (name : List Char)
    (hsrc : s.srcExists = true) (hname : STORE_ORDER[i]? = some name) :
    (syncMain s).exitCode = 0 ∧
    (∀ c, lookupKey s.src name = some c →
      lookupKey ((syncMain s).state.store.getD []) (numName (i + 1)) = some c) ∧
    (lookupKey s.src name = none →
      lookupKey ((syncMain s).state.store.getD []) (numName (i + 1)) =
          lookupKey (s.store.getD []) (numName (i + 1)) ∧
        name ∈ (syncMain s).warnings) := by
  rw [syncMain_run s hsrc]
  have hm : (i + 1, name) ∈ storeEntries := mem_storeEntries i name hname
  refine ⟨rfl, ?_, ?_⟩
  · intro c hc
    show lookupKey (syncStore s.src (s.store.getD [])).1 (numName (i + 1)) = some c
    rw [syncStore, storeFold_fst]
    exact storeDirFold_mem_some _ _ _ _ _ _ hm storeEntries_numName_nodup hc
  · intro hc
    constructor
    · show lookupKey (syncStore s.src (s.store.getD [])).1 (numName (i + 1)) = _
      rw [syncStore, storeFold_fst]
      exact storeDirFold_mem_none _ _ _ _ _ hm storeEntries_numName_nodup hc
    · exact storeFold_warn _ _ _ _ _ _ hm hc

theorem claim_C5_witness :
    (⟨true, [("Dashboard.png".data, [1])], none,
        some [(numName 2, [9])]⟩ : SyncState).srcExists = true ∧
    STORE_ORDER[0]? = some "Dashboard.png".data ∧
    ((syncMain ⟨true, [("Dashboard.png".data, [1])], none,
        some [(numName 2, [9])]⟩).exitCode = 0 ∧
      (∀ c, lookupKey [("Dashboard.png".data, ([1] : Content))] "Dashboard.png".data = some c →
        lookupKey ((syncMain ⟨true, [("Dashboard.png".data, [1])], none,
            some [(numName 2, [9])]⟩).state.store.getD []) (numName (0 + 1)) = some c) ∧
      (lookupKey [("Dashboard.png".data, ([1] : Content))] "Dashboard.png".data = none →
        lookupKey ((syncMain ⟨true, [("Dashboard.png".data, [1])], none,
            some [(numName 2, [9])]⟩).state.store.getD []) (numName (0 + 1)) =
            lookupKey ((some [(numName 2, ([9] : Content))]).getD []) (numName (0 + 1)) ∧
          "Dashboard.png".data ∈ (syncMain ⟨true, [("Dashboard.png".data, [1])], none,
            some [(numName 2, [9])]⟩).warnings)) :=
  ⟨rfl, rfl, claim_C5 _ 0 _ rfl rfl⟩

/-- C6: every `.png` file of the source directory is copied into the docs
destination under its unchanged name with identical content. -/
theorem claim_C6 (s : SyncState) (n : List Char) (c : Content)
    (hsrc : s.srcExists = true) (hnd : (s.src.map Prod.fst).Nodup)
    (hmem : (n, c) ∈ s.src) (hpng : endsWithPng n = true) :
    (syncMain s).state.docs ≠ none ∧
    lookupKey ((syncMain s).state.docs.getD []) n = some c := by
  rw [syncMain_run s hsrc]
  refine ⟨fun h => Option.noConfusion h, ?_⟩
  show lookupKey (syncDocs s.src (s.docs.getD [])) n = some c
  rw [syncDocs]
  exact foldl_insert_lookup_mem _ _ _ _ (sortedPngs_keys_nodup _ hnd)
    (mem_sortedPngs _ _ _ hmem hpng)

theorem claim_C6_witness :
    (⟨true, [("a.png".data, [7])], none, none⟩ : SyncState).srcExists = true ∧
    (([("a.png".data, ([7] : Content))]).map Prod.fst).Nodup ∧
    ("a.png".data, ([7] : Content)) ∈ [("a.png".data, ([7] : Content))] ∧
    endsWithPng "a.png".data = true ∧
    ((syncMain ⟨true, [("a.png".data, [7])], none, none⟩).state.docs ≠ none ∧
      lookupKey ((syncMain ⟨true, [("a.png".data, [7])], none, none⟩).state.docs.getD [])
        "a.png".data = some [7]) :=
  ⟨rfl, by decide, by decide, by decide,
    claim_C6 _ _ _ rfl (by decide) (by decide) (by decide)⟩

/-- C8: when the source directory is missing, sync exits 1 and performs no
filesystem mutation at all (in particular neither destination directory is
created). -/
theorem claim_C8 (s : SyncState) (h : s.srcExists = false) :
    (syncMain s).exitCode ≠ 0 ∧ (syncMain s).state = s := by
  rw [syncMain, if_pos h]
  exact ⟨fun hc => Nat.noConfusion hc, rfl⟩

theorem claim_C8_witness :
    (⟨false, [], none, none⟩ : SyncState).srcExists = false ∧
    ((syncMain ⟨false, [], none, none⟩).exitCode ≠ 0 ∧
      (syncMain ⟨false, [], none, none⟩).state = ⟨false, [], none, none⟩) :=
  ⟨rfl, claim_C8 _ rfl⟩

/-- C9: a second sync run over an unchanged source is a no-op: it exits 0 and
leaves both destination directories (and the whole state) exactly as the first
run left them. -/
theorem claim_C9 (s : SyncState) (hsrc : s.srcExists = true)
    (hnd : (s.src.map Prod.fst).Nodup) :
    (syncMain ((syncMain s).state)).state = (syncMain s).state ∧
    (syncMain ((syncMain s).state)).exitCode = 0 := by
  rw [syncMain_run s hsrc]
  rw [syncMain_run _ (by simpa using hsrc)]
  simp only
  constructor
  · have hdocs : syncDocs s.src ((some (syncDocs s.src (s.docs.getD []))).getD []) =
        syncDocs s.src (s.docs.getD []) := by
      show syncDocs s.src (syncDocs s.src (s.docs.getD [])) = _
      rw [syncDocs, syncDocs, foldl_insert_noop]
      intro p hp
      exact foldl_insert_lookup_mem _ _ _ _ (sortedPngs_keys_nodup _ hnd) (by simpa using hp)
    have hstore : (syncStore s.src
          ((some (syncStore s.src (s.store.getD [])).1).getD [])).1 =
        (syncStore s.src (s.store.getD [])).1 := by
      show (syncStore s.src ((syncStore s.src (s.store.getD [])).1)).1 = _
      rw [syncStore, syncStore, storeFold_fst, storeFold_fst, storeDirFold_noop]
      intro e he c hc
      exact storeDirFold_mem_some _ _ _ _ _ _ (by simpa using he)
        storeEntries_numName_nodup hc
    rw [hdocs, hstore]
  · trivial

theorem claim_C9_witness :
    (⟨true, [("a.png".data, [7])], none, none⟩ : SyncState).srcExists = true ∧
    (([("a.png".data, ([7] : Content))]).map Prod.fst).Nodup ∧
    ((syncMain ((syncMain ⟨true, [("a.png".data, [7])], none, none⟩).state)).state =
        (syncMain ⟨true, [("a.png".data, [7])], none, none⟩).state ∧
      (syncMain ((syncMain ⟨true, [("a.png".data, [7])], none, none⟩).state)).exitCode = 0) :=
  ⟨rfl, by decide, claim_C9 _ rfl (by decide)⟩

/-- C10: sync never deletes or renames: a file already in a destination whose
name is not written by this run (not a source `.png` name for docs; not the
numbered name of a present table entry for the store) is still there,
byte-identical, afterwards. -/
theorem claim_C10 (s : SyncState) (n : List Char) (c : Content) (hsrc : s.srcExists = true) :
    (∀ d, s.docs = some d → lookupKey d n = some c →
      (∀ p ∈ s.src, endsWithPng p.1 = true → p.1 ≠ n) →
      lookupKey ((syncMain s).state.docs.getD []) n = some c) ∧
    (∀ d, s.store = some d → lookupKey d n = some c →
      (∀ e ∈ storeEntries, lookupKey s.src e.2 ≠ none → numName e.1 ≠ n) →
      lookupKey ((syncMain s).state.store.getD []) n = some c) := by
  rw [syncMain_run s hsrc]
  constructor
  · intro d hd hc hnw
    show lookupKey (syncDocs s.src (s.docs.getD [])) n = some c
    rw [syncDocs, foldl_insert_lookup_not_mem]
    · rw [hd]
      exact hc
    · intro p hp
      have := sortedPngs_mem_src _ _ hp
      exact hnw p this.1 this.2
  · intro d hd hc hnw
    show lookupKey (syncStore s.src (s.store.getD [])).1 n = some c
    rw [syncStore, storeFold_fst, storeDirFold_frame _ _ _ _ hnw, hd]
    exact hc

theorem claim_C10_witness :
    (⟨true, [("a.png".data, [7])], some [("stale.png".data, [3])],
        some [("stale.png".data, [3])]⟩ : SyncState).srcExists = true ∧
    ((∀ d, (⟨true, [("a.png".data, [7])], some [("stale.png".data, [3])],
          some [("stale.png".data, [3])]⟩ : SyncState).docs = some d →
        lookupKey d "stale.png".data = some [3] →
        (∀ p ∈ (⟨true, [("a.png".data, [7])], some [("stale.png".data, [3])],
            some [("stale.png".data, [3])]⟩ : SyncState).src, endsWithPng p.1 = true →
          p.1 ≠ "stale.png".data) →
        lookupKey ((syncMain ⟨true, [("a.png".data, [7])], some [("stale.png".data, [3])],
            some [("stale.png".data, [3])]⟩).state.docs.getD []) "stale.png".data = some [3]) ∧
      (∀ d, (⟨true, [("a.png".data, [7])], some [("stale.png".data, [3])],
          some [("stale.png".data, [3])]⟩ : SyncState).store = some d →
        lookupKey d "stale.png".data = some [3] →
        (∀ e ∈ storeEntries, lookupKey (⟨true, [("a.png".data, [7])],
            some [("stale.png".data, [3])],
            some [("stale.png".data, [3])]⟩ : SyncState).src e.2 ≠ none →
          numName e.1 ≠ "stale.png".data) →
        lookupKey ((syncMain ⟨true, [("a.png".data, [7])], some [("stale.png".data, [3])],
            some [("stale.png".data, [3])]⟩).state.store.getD []) "stale.png".data =
          some [3])) :=
  ⟨rfl, claim_C10 ⟨true, [("a.png".data, [7])], some [("stale.png".data, [3])],
    some [("stale.png".data, [3])]⟩ "stale.png".data [3] rfl⟩

/-! ### bump-version.py: the version-format check

`re.match(r"^\d+\.\d+\.\d+$", version)` with CPython semantics: anchored at the
start, `\d` a digit (modelled as the ASCII digits, the only ones these scripts
meet), and `$` matching at the very end **or just before one trailing
newline**.  `strictSemver` is the spec's reading of the same pattern, with `$`
as absolute end of input. -/

theorem takeWhile_append_all (p : Char → Bool) (a b : List Char) (ha : ∀ c ∈ a, p c = true) :
    (a ++ b).takeWhile p = a ++ b.takeWhile p := by
  induction a with
  | nil => rfl
  | cons c rest ih =>
    rw [List.cons_append, List.takeWhile_cons, if_pos (ha c (List.mem_cons_self _ _)),
      ih fun x hx => ha x (List.mem_cons_of_mem _ hx), List.cons_append]

theorem dropWhile_append_all (p : Char → Bool) (a b : List Char) (ha : ∀ c ∈ a, p c = true) :
    (a ++ b).dropWhile p = b.dropWhile p := by
  induction a with
  | nil => rfl
  | cons c rest ih =>
    rw [List.cons_append, List.dropWhile_cons, if_pos (ha c (List.mem_cons_self _ _)),
      ih fun x hx => ha x (List.mem_cons_of_mem _ hx)]

/-- True when the list does not start with an ASCII digit. -/
def nonDigitHead : List Char → Bool
  | [] => true
  | c :: _ => !c.isDigit

theorem takeWhile_digit_nil (b : List Char) (hb : nonDigitHead b = true) :
    b.takeWhile Char.isDigit = [] := by
  cases b with
  | nil => rfl
  | cons c rest =>
    rw [List.takeWhile_cons, if_neg]
    simp only [nonDigitHead, Bool.not_eq_true'] at hb
    simp [hb]

theorem dropWhile_digit_id (b : List Char) (hb : nonDigitHead b = true) :
    b.dropWhile Char.isDigit = b := by
  cases b with
  | nil => rfl
  | cons c rest =>
    rw [List.dropWhile_cons, if_neg]
    simp only [nonDigitHead, Bool.not_eq_true'] at hb
    simp [hb]

theorem nonDigitHead_dropWhile (l : List Char) :
    nonDigitHead (l.dropWhile Char.isDigit) = true := by
  induction l with
  | nil => rfl
  | cons c rest ih =>
    rw [List.dropWhile_cons]
    by_cases hc : c.isDigit
    · rw [if_pos hc]
      exact ih
    · rw [if_neg hc]
      simpa [nonDigitHead] using hc

theorem mem_takeWhile_p (p : Char → Bool) (l : List Char) :
    ∀ c ∈ l.takeWhile p, p c = true := by
  induction l with
  | nil => intro c hc; cases hc
  | cons c0 rest ih =>
    intro c hc
    rw [List.takeWhile_cons] at hc
    by_cases h0 : p c0
    · rw [if_pos h0] at hc
      rcases List.mem_cons.mp hc with h | h
      · exact h ▸ h0
      · exact ih c h
    · rw [if_neg h0] at hc
      cases hc

/-- Match `\d+` (greedy, at least one digit); return the rest. -/
def semverGroup (s : List Char) : Option (List Char) :=
  if (s.takeWhile Char.isDigit).isEmpty then none else some (s.dropWhile Char.isDigit)

/-- Match a literal `.`; return the rest. -/
def expectDot : List Char → Option (List Char)
  | '.' :: r => some r
  | _ => none

/-- Matcher core for `\d+\.\d+\.\d+` anchored at the start: on success, returns
the remaining input after the three digit groups. -/
def semverBody (s : List Char) : Option (List Char) :=
  (semverGroup s).bind fun r1 => (expectDot r1).bind fun r2 =>
    (semverGroup r2).bind fun r3 => (expectDot r3).bind fun r4 => semverGroup r4

/-- `re.match(r"^\d+\.\d+\.\d+$", s) is not None` in CPython: `$` also matches
just before one trailing newline. -/
def semverMatchPy (s : List Char) : Bool :=
  match semverBody s with
  | some [] => true
  | some ['\n'] => true
  | _ => false

/-- Modelled from the spec: the pattern `^\d+\.\d+\.\d+$` read with `$` as
absolute end of input (the property the spec states). -/
def strictSemver (s : List Char) : Bool := semverBody s == some []

theorem semverGroup_eq_some (s r : List Char) (h : semverGroup s = some r) :
    s = s.takeWhile Char.isDigit ++ r ∧ s.takeWhile Char.isDigit ≠ [] ∧
      nonDigitHead r = true := by
  unfold semverGroup at h
  split at h
  · exact absurd h (by simp)
  rename_i hne
  rw [Option.some_inj] at h
  subst h
  exact ⟨(List.takeWhile_append_dropWhile Char.isDigit s).symm,
    by simpa using hne, nonDigitHead_dropWhile _⟩

theorem semverGroup_append (d r : List Char) (hne : d ≠ [])
    (hd : ∀ c ∈ d, c.isDigit = true) (hr : nonDigitHead r = true) :
    semverGroup (d ++ r) = some r := by
  rw [semverGroup, takeWhile_append_all _ _ _ hd, takeWhile_digit_nil _ hr,
    dropWhile_append_all _ _ _ hd, dropWhile_digit_id _ hr,
    if_neg (by simpa using hne)]

theorem expectDot_eq_some (s r : List Char) (h : expectDot s = some r) : s = '.' :: r := by
  unfold expectDot at h
  split at h
  · rw [Option.some_inj] at h
    subst h
    rfl
  · exact absurd h (by simp)

theorem semverBody_decomp (s r : List Char) (h : semverBody s = some r) :
    ∃ d1 d2 d3, s = d1 ++ '.' :: (d2 ++ '.' :: (d3 ++ r)) ∧
      d1 ≠ [] ∧ d2 ≠ [] ∧ d3 ≠ [] ∧
      (∀ c ∈ d1, c.isDigit = true) ∧ (∀ c ∈ d2, c.isDigit = true) ∧
      (∀ c ∈ d3, c.isDigit = true) ∧ nonDigitHead r = true := by
  unfold semverBody at h
  rcases hg1 : semverGroup s with _ | r1
  case none => rw [hg1] at h; cases h
  rw [hg1, Option.some_bind] at h
  rcases he1 : expectDot r1 with _ | r2
  case none => rw [he1] at h; cases h
  rw [he1, Option.some_bind] at h
  rcases hg2 : semverGroup r2 with _ | r3
  case none => rw [hg2] at h; cases h
  rw [hg2, Option.some_bind] at h
  rcases he2 : expectDot r3 with _ | r4
  case none => rw [he2] at h; cases h
  rw [he2, Option.some_bind] at h
  obtain ⟨hs1, hne1, -⟩ := semverGroup_eq_some _ _ hg1
  obtain ⟨hs2, hne2, -⟩ := semverGroup_eq_some _ _ hg2
  obtain ⟨hs3, hne3, hnd3⟩ := semverGroup_eq_some _ _ h
  refine ⟨s.takeWhile Char.isDigit, r2.takeWhile Char.isDigit, r4.takeWhile Char.isDigit,
    ?_, hne1, hne2, hne3, mem_takeWhile_p _ _, mem_takeWhile_p _ _, mem_takeWhile_p _ _, hnd3⟩
  conv_lhs => rw [hs1, expectDot_eq_some _ _ he1, hs2, expectDot_eq_some _ _ he2, hs3]

theorem semverBody_recomp (d1 d2 d3 r : List Char) (h1 : d1 ≠ []) (h2 : d2 ≠ [])
    (h3 : d3 ≠ []) (hd1 : ∀ c ∈ d1, c.isDigit = true) (hd2 : ∀ c ∈ d2, c.isDigit = true)
    (hd3 : ∀ c ∈ d3, c.isDigit = true) (hr : nonDigitHead r = true) :
    semverBody (d1 ++ '.' :: (d2 ++ '.' :: (d3 ++ r))) = some r := by
  rw [semverBody,
    semverGroup_append d1 ('.' :: (d2 ++ '.' :: (d3 ++ r))) h1 hd1 rfl, Option.some_bind,
    show expectDot ('.' :: (d2 ++ '.' :: (d3 ++ r))) = some (d2 ++ '.' :: (d3 ++ r)) from rfl,
    Option.some_bind,
    semverGroup_append d2 ('.' :: (d3 ++ r)) h2 hd2 rfl, Option.some_bind,
    show expectDot ('.' :: (d3 ++ r)) = some (d3 ++ r) from rfl, Option.some_bind,
    semverGroup_append d3 r h3 hd3 hr]

theorem semverBody_newline_of_strict (w : List Char) (h : strictSemver w = true) :
    semverBody (w ++ ['\n']) = some ['\n'] := by
  rw [strictSemver, beq_iff_eq] at h
  obtain ⟨d1, d2, d3, hw, h1, h2, h3, hd1, hd2, hd3, -⟩ := semverBody_decomp _ _ h
  subst hw
  have hshape : (d1 ++ '.' :: (d2 ++ '.' :: (d3 ++ []))) ++ ['\n'] =
      d1 ++ '.' :: (d2 ++ '.' :: (d3 ++ ['\n'])) := by simp
  rw [hshape, semverBody_recomp d1 d2 d3 ['\n'] h1 h2 h3 hd1 hd2 hd3 rfl]

theorem strict_of_semverBody_newline (s : List Char) (h : semverBody s = some ['\n']) :
    ∃ w, s = w ++ ['\n'] ∧ strictSemver w = true := by
  obtain ⟨d1, d2, d3, hs, h1, h2, h3, hd1, hd2, hd3, -⟩ := semverBody_decomp _ _ h
  refine ⟨d1 ++ '.' :: (d2 ++ '.' :: d3), by simp [hs], ?_⟩
  rw [strictSemver]
  have hshape : d1 ++ '.' :: (d2 ++ '.' :: d3) = d1 ++ '.' :: (d2 ++ '.' :: (d3 ++ [])) := by
    simp
  rw [hshape, semverBody_recomp d1 d2 d3 [] h1 h2 h3 hd1 hd2 hd3 rfl]
  rfl

/-- CPython's match succeeds exactly on strict matches and on strict matches
followed by one newline. -/
theorem semverMatchPy_iff (s : List Char) :
    semverMatchPy s = true ↔
      strictSemver s = true ∨ ∃ w, s = w ++ ['\n'] ∧ strictSemver w = true := by
  constructor
  · intro h
    unfold semverMatchPy at h
    split at h
    · rename_i heq
      left
      rw [strictSemver, heq]
      rfl
    · rename_i heq
      right
      exact strict_of_semverBody_newline _ heq
    · cases h
  · intro h
    rcases h with h | ⟨w, hw, hsw⟩
    · rw [strictSemver, beq_iff_eq] at h
      unfold semverMatchPy
      rw [h]
    · subst hw
      unfold semverMatchPy
      rw [semverBody_newline_of_strict w hsw]
      rfl

theorem strictSemver_chars (v : List Char) (h : strictSemver v = true) :
    v ≠ [] ∧ ∀ c ∈ v, c.isDigit = true ∨ c = '.' := by
  rw [strictSemver, beq_iff_eq] at h
  obtain ⟨d1, d2, d3, hv, h1, h2, h3, hd1, hd2, hd3, -⟩ := semverBody_decomp _ _ h
  subst hv
  constructor
  · simp [h1]
  · intro c hc
    simp only [List.mem_append, List.mem_cons, List.append_nil] at hc
    rcases hc with hc | hc | hc | hc | hc
    · exact Or.inl (hd1 c hc)
    · exact Or.inr hc
    · exact Or.inl (hd2 c hc)
    · exact Or.inr hc
    · exact Or.inl (hd3 c hc)

theorem strictSemver_no_special (v : List Char) (h : strictSemver v = true) :
    ∀ c ∈ v, c ≠ 'v' ∧ c ≠ '"' ∧ c ≠ '\n' := by
  intro c hc
  rcases (strictSemver_chars v h).2 c hc with hd | hd
  · refine ⟨?_, ?_, ?_⟩ <;> (intro he; subst he; exact absurd hd (by decide))
  · subst hd
    exact ⟨by decide, by decide, by decide⟩

/-! ### bump-version.py: the two build.gradle regex operations

`re.search(r'versionName "(.+?)"', text)` / `re.search(r"versionCode (\d+)",
text)` (leftmost match) and the corresponding `re.sub` (replace every match,
scanning left to right).  `.` does not match a newline; `+?` is non-greedy;
`\d+` is greedy (ASCII digits). -/

/-- The literal prefix `versionName "` of the versionName pattern. -/
def LIT_NAME : List Char := "versionName \"".data

/-- The literal prefix `versionCode ` of the versionCode pattern. -/
def LIT_CODE : List Char := "versionCode ".data

/-- Does `l` start with the literal `lit`? -/
def hasPre (lit l : List Char) : Bool := l.take lit.length == lit

/-- Match `(.+?)"` non-greedily: the shortest run of one-or-more non-newline
characters followed by `"`; returns the run and the input after the quote. -/
def scanQuoted : List Char → Option (List Char × List Char)
  | [] => none
  | [_] => none
  | c :: d :: rest =>
    if c = '\n' then none
    else if d = '"' then some ([c], rest)
    else (scanQuoted (d :: rest)).map fun p => (c :: p.1, p.2)

/-- The digit run of a versionCode match starting at the head of `l`. -/
def codeDigits (l : List Char) : List Char := (l.drop 12).takeWhile Char.isDigit

/-- Is there a versionCode match starting exactly at the head of `l`? -/
def codeMatchAt (l : List Char) : Bool := hasPre LIT_CODE l && !(codeDigits l).isEmpty

/-- Is there a versionName match starting exactly at the head of `l`? -/
def nameMatchAt (l : List Char) : Bool := hasPre LIT_NAME l && (scanQuoted (l.drop 13)).isSome

theorem scanQuoted_rest_len (l : List Char) : ∀ p, scanQuoted l = some p →
    p.2.length < l.length := by
  induction l with
  | nil => intro p h; cases h
  | cons c rest ih =>
    intro p h
    rcases rest with _ | ⟨d, rrest⟩
    · cases h
    rw [scanQuoted] at h
    split at h
    · cases h
    split at h
    · rw [Option.some_inj] at h
      subst h
      simp only [List.length_cons]
      omega
    · rcases hs : scanQuoted (d :: rrest) with _ | q
      · rw [hs] at h; cases h
      rw [hs, Option.map_some', Option.some_inj] at h
      subst h
      have := ih q hs
      simp only [List.length_cons] at this ⊢
      omega

theorem scanQuoted_decomp (l : List Char) : ∀ w q, scanQuoted l = some (w, q) →
    l = w ++ '"' :: q ∧ w ≠ [] ∧ (∀ c ∈ w, c ≠ '\n') ∧ ∀ c ∈ w.tail, c ≠ '"' := by
  induction l with
  | nil => intro w q h; cases h
  | cons c rest ih =>
    intro w q h
    rcases rest with _ | ⟨d, rrest⟩
    · cases h
    rw [scanQuoted] at h
    split at h
    · cases h
    rename_i hnl
    split at h
    · rename_i hq
      subst hq
      rw [Option.some_inj, Prod.mk.injEq] at h
      obtain ⟨hw, hqq⟩ := h
      subst hw
      subst hqq
      refine ⟨rfl, by simp, ?_, by simp⟩
      intro x hx
      rw [List.mem_singleton] at hx
      subst hx
      exact hnl
    · rename_i hdq
      rcases hs : scanQuoted (d :: rrest) with _ | p
      · rw [hs] at h; cases h
      rw [hs, Option.map_some', Option.some_inj, Prod.mk.injEq] at h
      obtain ⟨hw, hqq⟩ := h
      obtain ⟨w', q'⟩ := p
      obtain ⟨hrest, hne, hnl', hnq⟩ := ih w' q' hs
      subst hw
      subst hqq
      refine ⟨by rw [List.cons_append, ← hrest], by simp, ?_, ?_⟩
      · intro x hx
        rcases List.mem_cons.mp hx with hx | hx
        · subst hx; exact hnl
        · exact hnl' x hx
      · intro x hx
        simp only [List.tail_cons] at hx
        rcases hw0 : w' with _ | ⟨w0, wrest⟩
        · subst hw0; cases hx
        subst hw0
        rw [List.cons_append, List.cons.injEq] at hrest
        rcases List.mem_cons.mp hx with hx | hx
        · subst hx
          rw [← hrest.1]
          exact hdq
        · exact hnq x (by simpa using hx)

theorem scanQuoted_append (w : List Char) (x : List Char) (hne : w ≠ [])
    (hnl : ∀ c ∈ w, c ≠ '\n') (hnq : ∀ c ∈ w.tail, c ≠ '"') :
    scanQuoted (w ++ '"' :: x) = some (w, x) := by
  induction w with
  | nil => exact absurd rfl hne
  | cons c rest ih =>
    rcases rest with _ | ⟨r0, rrest⟩
    · rw [show [c] ++ '"' :: x = c :: '"' :: x from rfl, scanQuoted,
        if_neg (hnl c (List.mem_cons_self _ _)), if_pos rfl]
    · have hr0 : r0 ≠ '"' := hnq r0 (by simp)
      have hrec := ih (by simp)
        (fun a ha => hnl a (List.mem_cons_of_mem _ ha))
        (fun a ha => hnq a (by
          simp only [List.tail_cons] at ha ⊢
          exact List.mem_of_mem_tail ha))
      rw [show (c :: r0 :: rrest) ++ '"' :: x = c :: r0 :: (rrest ++ '"' :: x) from rfl,
        scanQuoted, if_neg (hnl c (List.mem_cons_self _ _)), if_neg hr0,
        show r0 :: (rrest ++ '"' :: x) = (r0 :: rrest) ++ '"' :: x from rfl, hrec,
        Option.map_some']

/-- `re.search(r'versionName "(.+?)"', text)` — the content of the leftmost
versionName match. -/
def findName : List Char → Option (List Char)
  | [] => none
  | c :: rest =>
    if nameMatchAt (c :: rest) then (scanQuoted ((c :: rest).drop 13)).map Prod.fst
    else findName rest

/-- `re.sub(r'versionName ".+?"', f'versionName "{v}"', text)` — replace every
versionName match, scanning left to right. -/
def subName (v : List Char) : List Char → List Char
  | [] => []
  | c :: rest =>
    if nameMatchAt (c :: rest) then
      match h : scanQuoted ((c :: rest).drop 13) with
      | some p => LIT_NAME ++ v ++ '"' :: subName v p.2
      | none => c :: subName v rest
    else c :: subName v rest
termination_by l => l.length
decreasing_by
  · have hlen := scanQuoted_rest_len _ _ h
    simp only [List.length_drop, List.length_cons] at hlen ⊢
    omega
  · simp
  · simp

/-- The contents of all versionName matches, left to right. -/
def nameContents : List Char → List (List Char)
  | [] => []
  | c :: rest =>
    if nameMatchAt (c :: rest) then
      match h : scanQuoted ((c :: rest).drop 13) with
      | some p => p.1 :: nameContents p.2
      | none => nameContents rest
    else nameContents rest
termination_by l => l.length
decreasing_by
  · have hlen := scanQuoted_rest_len _ _ h
    simp only [List.length_drop, List.length_cons] at hlen ⊢
    omega
  · simp
  · simp

/-- `re.search(r"versionCode (\d+)", text)` — the integer value of the leftmost
versionCode match. -/
def findCode : List Char → Option Nat
  | [] => none
  | c :: rest =>
    if codeMatchAt (c :: rest) then some (natOfDigits (codeDigits (c :: rest)))
    else findCode rest

theorem dropDigits_len (c : Char) (rest : List Char) :
    (((c :: rest).drop 12).dropWhile Char.isDigit).length < (c :: rest).length := by
  have hlen := (List.dropWhile_sublist Char.isDigit
    (l := (c :: rest).drop 12)).length_le
  simp only [List.length_drop, List.length_cons] at hlen ⊢
  omega

/-- `re.sub(r"versionCode \d+", f"versionCode {n}", text)` — replace every
versionCode match, scanning left to right. -/
def subCode (n : Nat) : List Char → List Char
  | [] => []
  | c :: rest =>
    if codeMatchAt (c :: rest) then
      LIT_CODE ++ natToDigits n ++ subCode n (((c :: rest).drop 12).dropWhile Char.isDigit)
    else c :: subCode n rest
termination_by l => l.length
decreasing_by
  · exact dropDigits_len _ _
  · simp

/-- `update_build_gradle`: read the old code from the original text (default 0),
substitute the versionName pattern, then the versionCode pattern with old+1. -/
def update_build_gradle (version text : List Char) : List Char :=
  subCode ((findCode text).getD 0 + 1) (subName version text)

/-! #### Step and shape lemmas for the regex functions -/

theorem hasPre_iff (lit l : List Char) : hasPre lit l = true ↔ l.take lit.length = lit := by
  rw [hasPre, beq_iff_eq]

theorem hasPre_getElem (lit l : List Char) (i : Nat) (h : hasPre lit l = true)
    (hi : i < lit.length) : l[i]? = lit[i]? := by
  rw [hasPre_iff] at h
  rw [← h, List.getElem?_take, if_pos hi]

theorem hasPre_lit_append (lit x : List Char) : hasPre lit (lit ++ x) = true := by
  rw [hasPre_iff]
  exact List.take_left lit x

theorem hasPre_ext (lit l l' : List Char) (h : l.take lit.length = l'.take lit.length) :
    hasPre lit l = hasPre lit l' := by
  rw [hasPre, hasPre, h]

theorem findName_cons_no (c : Char) (rest : List Char)
    (h : nameMatchAt (c :: rest) = false) : findName (c :: rest) = findName rest := by
  rw [findName, if_neg (by simp [h])]

theorem findName_cons_match (c : Char) (rest : List Char)
    (h : nameMatchAt (c :: rest) = true) :
    findName (c :: rest) = (scanQuoted ((c :: rest).drop 13)).map Prod.fst := by
  rw [findName, if_pos h]

theorem subName_cons_no (v : List Char) (c : Char) (rest : List Char)
    (h : nameMatchAt (c :: rest) = false) : subName v (c :: rest) = c :: subName v rest := by
  rw [subName, if_neg (by simp [h])]

theorem subName_cons_match (v : List Char) (c : Char) (rest : List Char)
    (p : List Char × List Char) (h : nameMatchAt (c :: rest) = true)
    (hs : scanQuoted ((c :: rest).drop 13) = some p) :
    subName v (c :: rest) = LIT_NAME ++ v ++ '"' :: subName v p.2 := by
  rw [subName, if_pos h]
  split
  · rename_i p' hp'
    rw [hs, Option.some_inj] at hp'
    rw [hp']
  · rename_i hp'
    rw [hs] at hp'
    cases hp'

theorem nameContents_cons_no (c : Char) (rest : List Char)
    (h : nameMatchAt (c :: rest) = false) : nameContents (c :: rest) = nameContents rest := by
  rw [nameContents, if_neg (by simp [h])]

theorem nameContents_cons_match (c : Char) (rest : List Char)
    (p : List Char × List Char) (h : nameMatchAt (c :: rest) = true)
    (hs : scanQuoted ((c :: rest).drop 13) = some p) :
    nameContents (c :: rest) = p.1 :: nameContents p.2 := by
  rw [nameContents, if_pos h]
  split
  · rename_i p' hp'
    rw [hs, Option.some_inj] at hp'
    rw [hp']
  · rename_i hp'
    rw [hs] at hp'
    cases hp'

theorem findCode_cons_no (c : Char) (rest : List Char)
    (h : codeMatchAt (c :: rest) = false) : findCode (c :: rest) = findCode rest := by
  rw [findCode, if_neg (by simp [h])]

theorem findCode_cons_match (c : Char) (rest : List Char)
    (h : codeMatchAt (c :: rest) = true) :
    findCode (c :: rest) = some (natOfDigits (codeDigits (c :: rest))) := by
  rw [findCode, if_pos h]

theorem subCode_cons_no (n : Nat) (c : Char) (rest : List Char)
    (h : codeMatchAt (c :: rest) = false) : subCode n (c :: rest) = c :: subCode n rest := by
  rw [subCode, if_neg (by simp [h])]

theorem subCode_cons_match (n : Nat) (c : Char) (rest : List Char)
    (h : codeMatchAt (c :: rest) = true) :
    subCode n (c :: rest) =
      LIT_CODE ++ natToDigits n ++ subCode n (((c :: rest).drop 12).dropWhile Char.isDigit) := by
  rw [subCode, if_pos h]

theorem codeMatchAt_iff (l : List Char) : codeMatchAt l = true ↔
    l.take 12 = LIT_CODE ∧ ∃ c, l[12]? = some c ∧ c.isDigit = true := by
  rw [codeMatchAt, Bool.and_eq_true, hasPre_iff]
  constructor
  · rintro ⟨h1, h2⟩
    refine ⟨h1, ?_⟩
    rw [Bool.not_eq_true', List.isEmpty_eq_false_iff_exists_mem] at h2
    obtain ⟨c0, hc0⟩ := h2
    rw [codeDigits] at hc0
    rcases hd : l.drop 12 with _ | ⟨d, drest⟩
    · rw [hd] at hc0; cases hc0
    · have hd12 : l[12]? = some d := by
        rw [← List.head?_drop, hd]
        rfl
      rw [hd] at hc0
      rw [List.takeWhile_cons] at hc0
      by_cases hdig : d.isDigit
      · exact ⟨d, hd12, hdig⟩
      · rw [if_neg hdig] at hc0
        cases hc0
  · rintro ⟨h1, c0, hc0, hdig⟩
    refine ⟨h1, ?_⟩
    rw [Bool.not_eq_true', List.isEmpty_eq_false_iff_exists_mem]
    rw [codeDigits]
    rcases hd : l.drop 12 with _ | ⟨d, drest⟩
    · rw [← List.head?_drop, hd] at hc0
      cases hc0
    · have : d = c0 := by
        rw [← List.head?_drop, hd] at hc0
        exact Option.some_inj.mp hc0
      subst this
      rw [List.takeWhile_cons, if_pos hdig]
      exact ⟨d, List.mem_cons_self _ _⟩

theorem nameMatchAt_iff (l : List Char) : nameMatchAt l = true ↔
    l.take 13 = LIT_NAME ∧ (scanQuoted (l.drop 13)).isSome = true := by
  rw [nameMatchAt, Bool.and_eq_true, hasPre_iff]
  rw [show LIT_NAME.length = 13 from rfl]

theorem codeMatchAt_ext (l l' : List Char) (h : l.take 13 = l'.take 13) :
    codeMatchAt l = codeMatchAt l' := by
  have h12 : l.take 12 = l'.take 12 := by
    rw [show (12 : Nat) = min 12 13 from rfl, ← List.take_take, h, List.take_take]
  have hg : l[12]? = l'[12]? := by
    rw [show l[12]? = (l.take 13)[12]? from by rw [List.getElem?_take, if_pos (by omega)], h,
      List.getElem?_take, if_pos (by omega)]
  rcases hc : codeMatchAt l' with _ | _
  · rw [Bool.eq_false_iff]
    intro hl
    rw [codeMatchAt_iff, h12, hg] at hl
    rw [Bool.eq_false_iff] at hc
    exact hc (codeMatchAt_iff l' |>.mpr hl)
  · rw [codeMatchAt_iff] at hc ⊢
    rw [h12, hg]
    exact hc

theorem codeMatchAt_decomp (l : List Char) (h : codeMatchAt l = true) :
    l = LIT_CODE ++ (codeDigits l ++ (l.drop 12).dropWhile Char.isDigit) ∧
      codeDigits l ≠ [] ∧ (∀ c ∈ codeDigits l, c.isDigit = true) ∧
      nonDigitHead ((l.drop 12).dropWhile Char.isDigit) = true := by
  rw [codeMatchAt, Bool.and_eq_true, hasPre_iff] at h
  obtain ⟨h1, h2⟩ := h
  refine ⟨?_, ?_, mem_takeWhile_p _ _, nonDigitHead_dropWhile _⟩
  · rw [codeDigits, List.takeWhile_append_dropWhile]
    rw [show (LIT_CODE.length : Nat) = 12 from rfl] at h1
    rw [← h1, List.take_append_drop]
  · intro he
    rw [codeDigits] at he
    rw [Bool.not_eq_true', List.isEmpty_eq_false_iff_exists_mem] at h2
    obtain ⟨c0, hc0⟩ := h2
    rw [codeDigits, he] at hc0
    cases hc0

theorem codeMatchAt_build (D x : List Char) (hD : D ≠ [])
    (hdig : ∀ c ∈ D, c.isDigit = true) (hx : nonDigitHead x = true) :
    codeMatchAt (LIT_CODE ++ (D ++ x)) = true ∧
      codeDigits (LIT_CODE ++ (D ++ x)) = D ∧
      ((LIT_CODE ++ (D ++ x)).drop 12).dropWhile Char.isDigit = x := by
  have hdrop : (LIT_CODE ++ (D ++ x)).drop 12 = D ++ x := by
    rw [show (12 : Nat) = LIT_CODE.length from rfl, List.drop_left]
  have hcd : codeDigits (LIT_CODE ++ (D ++ x)) = D := by
    rw [codeDigits, hdrop, takeWhile_append_all _ _ _ hdig, takeWhile_digit_nil _ hx,
      List.append_nil]
  refine ⟨?_, hcd, ?_⟩
  · rw [codeMatchAt, hasPre_lit_append, Bool.true_and, hcd, Bool.not_eq_true',
      List.isEmpty_eq_false_iff_exists_mem]
    rcases D with _ | ⟨d, drest⟩
    · exact absurd rfl hD
    · exact ⟨d, List.mem_cons_self _ _⟩
  · rw [hdrop, dropWhile_append_all _ _ _ hdig, dropWhile_digit_id _ hx]

theorem codeMatchAt_false_LIT_NAME (x : List Char) :
    codeMatchAt (LIT_NAME ++ x) = false := by
  rw [Bool.eq_false_iff]
  intro h
  rw [codeMatchAt_iff] at h
  have h7 : (LIT_NAME ++ x).take 12 = LIT_CODE := h.1
  have : LIT_NAME.take 12 = LIT_CODE := by
    rw [← List.take_append_of_le_length (by decide : (12 : Nat) ≤ LIT_NAME.length)]
    exact h7
  exact absurd this (by decide)

theorem codeMatchAt_head (l : List Char) (h : codeMatchAt l = true) :
    l.head? = some 'v' := by
  rw [codeMatchAt_iff] at h
  rw [List.head?_eq_getElem?,
    show l[0]? = (l.take 12)[0]? from by rw [List.getElem?_take, if_pos (by omega)], h.1]
  rfl

theorem nameMatchAt_head (l : List Char) (h : nameMatchAt l = true) :
    l.head? = some 'v' := by
  rw [nameMatchAt_iff] at h
  rw [List.head?_eq_getElem?,
    show l[0]? = (l.take 13)[0]? from by rw [List.getElem?_take, if_pos (by omega)], h.1]
  rfl

theorem codeMatchAt_false_head (c : Char) (rest : List Char) (h : c ≠ 'v') :
    codeMatchAt (c :: rest) = false := by
  rw [Bool.eq_false_iff]
  intro hm
  have := codeMatchAt_head _ hm
  rw [List.head?_cons, Option.some_inj] at this
  exact h this

theorem nameMatchAt_false_head (c : Char) (rest : List Char) (h : c ≠ 'v') :
    nameMatchAt (c :: rest) = false := by
  rw [Bool.eq_false_iff]
  intro hm
  have := nameMatchAt_head _ hm
  rw [List.head?_cons, Option.some_inj] at this
  exact h this

/-- A versionCode match cannot straddle a closing quote: if one starts at the
head of `u ++ '"' :: q` then it already lies inside `u`. -/
theorem codeMatchAt_quote (u q : List Char) (h : codeMatchAt (u ++ '"' :: q) = true) :
    codeMatchAt u = true := by
  rw [codeMatchAt_iff] at h
  obtain ⟨h1, c0, hc0, hdig⟩ := h
  rcases Nat.lt_or_ge u.length 12 with hu | hu
  · exfalso
    have hq : (u ++ '"' :: q)[u.length]? = some '"' := by
      rw [List.getElem?_append, if_neg (by omega)]
      simp
    have : LIT_CODE[u.length]? = some '"' := by
      rw [← hq, show (u ++ '"' :: q)[u.length]? = ((u ++ '"' :: q).take 12)[u.length]? from by
        rw [List.getElem?_take, if_pos hu], h1]
    have : '"' ∈ LIT_CODE := by
      rcases List.getElem?_eq_some_iff.mp this with ⟨hlt, hg⟩
      exact hg ▸ List.getElem_mem hlt
    exact absurd this (by decide)
  rcases Nat.lt_or_ge u.length 13 with hu13 | hu13
  · exfalso
    have hu12 : u.length = 12 := by omega
    have : (u ++ '"' :: q)[12]? = some '"' := by
      rw [List.getElem?_append, if_neg (by omega), hu12]
      simp
    rw [this, Option.some_inj] at hc0
    subst hc0
    exact absurd hdig (by decide)
  · rw [codeMatchAt_iff]
    refine ⟨?_, c0, ?_, hdig⟩
    · rw [← h1, List.take_append_of_le_length (by omega)]
    · rw [← hc0, List.getElem?_append, if_pos (by omega)]

theorem subName_nil (v : List Char) : subName v [] = [] := by rw [subName]

theorem subCode_nil (n : Nat) : subCode n [] = [] := by rw [subCode]

theorem nameContents_nil : nameContents [] = [] := by rw [nameContents]

/-! #### Substitution preserves a 13-character prefix -/

theorem subName_take (v : List Char) (l : List Char) :
    ∀ k, k ≤ 13 → (subName v l).take k = l.take k := by
  induction l with
  | nil => intro k hk; rw [subName_nil]
  | cons c rest ih =>
    intro k hk
    by_cases hm : nameMatchAt (c :: rest) = true
    · rcases hscan : scanQuoted ((c :: rest).drop 13) with _ | p
      · rw [nameMatchAt_iff, hscan] at hm
        exact absurd hm.2 (by simp)
      · rw [subName_cons_match v c rest p hm hscan]
        have h13 : (c :: rest).take 13 = LIT_NAME := (nameMatchAt_iff _ |>.mp hm).1
        rw [show LIT_NAME ++ v ++ '"' :: subName v p.2 =
          LIT_NAME ++ (v ++ '"' :: subName v p.2) from by simp,
          List.take_append_of_le_length (show k ≤ LIT_NAME.length from hk),
          show (c :: rest).take k = ((c :: rest).take 13).take k from by
            rw [List.take_take, Nat.min_eq_left hk], h13]
    · rw [subName_cons_no v c rest (by simpa using hm)]
      rcases k with _ | k
      · rfl
      · rw [List.take_succ_cons, List.take_succ_cons, ih k (by omega)]

theorem subCode_take (n : Nat) (l : List Char) :
    ∀ k, k ≤ 12 → (subCode n l).take k = l.take k := by
  induction l with
  | nil => intro k hk; rw [subCode_nil]
  | cons c rest ih =>
    intro k hk
    by_cases hm : codeMatchAt (c :: rest) = true
    · rw [subCode_cons_match n c rest hm]
      have h12 : (c :: rest).take 12 = LIT_CODE := (codeMatchAt_iff _ |>.mp hm).1
      rw [List.append_assoc,
        List.take_append_of_le_length (show k ≤ LIT_CODE.length from hk),
        show (c :: rest).take k = ((c :: rest).take 12).take k from by
          rw [List.take_take, Nat.min_eq_left hk], h12]
    · rw [subCode_cons_no n c rest (by simpa using hm)]
      rcases k with _ | k
      · rfl
      · rw [List.take_succ_cons, List.take_succ_cons, ih k (by omega)]

theorem head_eq_of_take_eq (l l' : List Char) (h : l.take 1 = l'.take 1) :
    l.head? = l'.head? := by
  rcases l with _ | ⟨a, l⟩ <;> rcases l' with _ | ⟨a', l'⟩ <;> simp_all

theorem subName_head (v : List Char) (l : List Char) : (subName v l).head? = l.head? :=
  head_eq_of_take_eq _ _ (subName_take v l 1 (by omega))

theorem subCode_head (n : Nat) (l : List Char) : (subCode n l).head? = l.head? :=
  head_eq_of_take_eq _ _ (subCode_take n l 1 (by omega))

theorem digit_not_special (c : Char) (h : c.isDigit = true) :
    c ≠ '"' ∧ c ≠ '\n' ∧ c ≠ 'v' ∧ c ≠ '.' := by
  refine ⟨?_, ?_, ?_, ?_⟩ <;> (intro he; subst he; exact absurd h (by decide))

/-! #### A failed quote scan stays failed under substitution -/

theorem scanQuoted_none_shape (c : Char) (rest : List Char)
    (h : scanQuoted (c :: rest) = none) :
    rest = [] ∨ c = '\n' ∨ (rest.head? ≠ some '"' ∧ scanQuoted rest = none) := by
  rcases rest with _ | ⟨d, rrest⟩
  · exact Or.inl rfl
  rw [scanQuoted] at h
  by_cases hc : c = '\n'
  · exact Or.inr (Or.inl hc)
  rw [if_neg hc] at h
  by_cases hd : d = '"'
  · rw [if_pos hd] at h
    cases h
  rw [if_neg hd] at h
  refine Or.inr (Or.inr ⟨by simpa using hd, ?_⟩)
  rcases hs : scanQuoted (d :: rrest) with _ | p
  · rfl
  · rw [hs, Option.map_some'] at h
    cases h

theorem scanQuoted_none_build (c : Char) (rest : List Char)
    (h : c = '\n' ∨ (rest.head? ≠ some '"' ∧ scanQuoted rest = none)) :
    scanQuoted (c :: rest) = none := by
  rcases rest with _ | ⟨d, rrest⟩
  · rfl
  rw [scanQuoted]
  by_cases hc : c = '\n'
  · rw [if_pos hc]
  · rw [if_neg hc]
    rcases h with h | ⟨hd, hs⟩
    · exact absurd h hc
    · rw [if_neg (by simpa using hd), hs]
      rfl

theorem nameMatchAt_head? (l : List Char) (c : Char) (h : l.head? = some c)
    (hc : c ≠ 'v') : nameMatchAt l = false := by
  rcases l with _ | ⟨c0, rest⟩
  · cases h
  · rw [List.head?_cons, Option.some_inj] at h
    subst h
    exact nameMatchAt_false_head _ _ hc

theorem codeMatchAt_head? (l : List Char) (c : Char) (h : l.head? = some c)
    (hc : c ≠ 'v') : codeMatchAt l = false := by
  rcases l with _ | ⟨c0, rest⟩
  · cases h
  · rw [List.head?_cons, Option.some_inj] at h
    subst h
    exact codeMatchAt_false_head _ _ hc

theorem nameMatchAt_false_LIT_CODE (x : List Char) :
    nameMatchAt (LIT_CODE ++ x) = false := by
  rw [Bool.eq_false_iff]
  intro h
  rw [nameMatchAt_iff] at h
  have h7 : (LIT_CODE ++ x)[7]? = LIT_NAME[7]? := by
    rw [show (LIT_CODE ++ x)[7]? = ((LIT_CODE ++ x).take 13)[7]? from by
      rw [List.getElem?_take, if_pos (by omega)], h.1]
  rw [List.getElem?_append, if_pos (by decide)] at h7
  exact absurd h7 (by decide)

theorem nonDigitHead_congr (l l' : List Char) (h : l.head? = l'.head?) :
    nonDigitHead l = nonDigitHead l' := by
  rcases l with _ | ⟨a, l⟩ <;> rcases l' with _ | ⟨a', l'⟩ <;> simp_all [nonDigitHead]

theorem findCode_of_match (l : List Char) (h : codeMatchAt l = true) :
    findCode l = some (natOfDigits (codeDigits l)) := by
  rcases l with _ | ⟨c, rest⟩
  · cases (by decide : codeMatchAt [] = false).symm.trans h
  · exact findCode_cons_match c rest h

theorem findName_of_match (l : List Char) (h : nameMatchAt l = true) :
    findName l = (scanQuoted (l.drop 13)).map Prod.fst := by
  rcases l with _ | ⟨c, rest⟩
  · cases (by decide : nameMatchAt [] = false).symm.trans h
  · exact findName_cons_match c rest h

theorem codeMatchAt_decompE (l : List Char) (h : codeMatchAt l = true) :
    ∃ D R5, l = LIT_CODE ++ (D ++ R5) ∧ D ≠ [] ∧ (∀ c ∈ D, c.isDigit = true) ∧
      nonDigitHead R5 = true ∧ codeDigits l = D ∧
      (l.drop 12).dropWhile Char.isDigit = R5 := by
  obtain ⟨h1, h2, h3, h4⟩ := codeMatchAt_decomp l h
  exact ⟨codeDigits l, (l.drop 12).dropWhile Char.isDigit, h1, h2, h3, h4, rfl, rfl⟩

theorem scanQuoted_none_subName (v : List Char) (l : List Char)
    (h : scanQuoted l = none) : scanQuoted (subName v l) = none := by
  induction l with
  | nil => rw [subName_nil]; rfl
  | cons c rest ih =>
    by_cases hm : nameMatchAt (c :: rest) = true
    · exfalso
      have h13 : (c :: rest).take 13 = LIT_NAME := (nameMatchAt_iff _ |>.mp hm).1
      have hsome : scanQuoted (c :: rest) =
          some ("versionName ".data, (c :: rest).drop 13) := by
        conv_lhs =>
          rw [show c :: rest = (c :: rest).take 13 ++ (c :: rest).drop 13 from
            (List.take_append_drop 13 (c :: rest)).symm, h13,
            show LIT_NAME = "versionName ".data ++ ['"'] from rfl, List.append_assoc,
            show ['"'] ++ (c :: rest).drop 13 = '"' :: (c :: rest).drop 13 from rfl]
        exact scanQuoted_append _ _ (by decide) (by decide) (by decide)
      rw [hsome] at h
      cases h
    · rw [subName_cons_no v c rest (by simpa using hm)]
      rcases scanQuoted_none_shape c rest h with hnil | hc | ⟨hhead, hrest⟩
      · subst hnil
        rw [subName_nil]
        rfl
      · exact scanQuoted_none_build c _ (Or.inl hc)
      · refine scanQuoted_none_build c _ (Or.inr ⟨?_, ih hrest⟩)
        rw [subName_head]
        exact hhead

theorem scanQuoted_none_append (a x : List Char) (ha : a ≠ [])
    (hq : ∀ c ∈ a, c ≠ '"' ∧ c ≠ '\n') :
    scanQuoted (a ++ x) = none ↔ x.head? ≠ some '"' ∧ scanQuoted x = none := by
  induction a with
  | nil => exact absurd rfl ha
  | cons c arest ih =>
    have hc := hq c (List.mem_cons_self _ _)
    rcases arest with _ | ⟨a1, arest'⟩
    · constructor
      · intro h
        rcases scanQuoted_none_shape c x h with hnil | hnl | ⟨hh, hs⟩
        · subst hnil
          exact ⟨by simp, rfl⟩
        · exact absurd hnl hc.2
        · exact ⟨hh, hs⟩
      · intro ⟨hh, hs⟩
        exact scanQuoted_none_build c x (Or.inr ⟨hh, hs⟩)
    · have ih' := ih (by simp) fun c' hc' => hq c' (List.mem_cons_of_mem _ hc')
      rw [List.cons_append]
      constructor
      · intro h
        rcases scanQuoted_none_shape c ((a1 :: arest') ++ x) h with hnil | hnl | ⟨hh, hs⟩
        · cases hnil
        · exact absurd hnl hc.2
        · exact ih'.mp hs
      · intro hcond
        refine scanQuoted_none_build c _ (Or.inr ⟨?_, ih'.mpr hcond⟩)
        rw [List.cons_append, List.head?_cons]
        have ha1 := hq a1 (List.mem_cons_of_mem _ (List.mem_cons_self _ _))
        intro he
        exact ha1.1 (Option.some_inj.mp he)

theorem LIT_CODE_digits_chars (D : List Char) (hdig : ∀ c ∈ D, c.isDigit = true) :
    ∀ c ∈ LIT_CODE ++ D, c ≠ '"' ∧ c ≠ '\n' := by
  intro c hc
  rcases List.mem_append.mp hc with hc | hc
  · have hall : ∀ c' ∈ LIT_CODE, c' ≠ '"' ∧ c' ≠ '\n' := by decide
    exact hall c hc
  · have := digit_not_special c (hdig c hc)
    exact ⟨this.1, this.2.1⟩

theorem scanQuoted_none_subCode (n : Nat) : ∀ l, scanQuoted l = none →
    scanQuoted (subCode n l) = none
  | [] => fun _ => by rw [subCode_nil]; rfl
  | c :: rest => fun h => by
    by_cases hm : codeMatchAt (c :: rest) = true
    · obtain ⟨D, R5, hdec, hD, hdig, hnd, hcd, hR5⟩ := codeMatchAt_decompE _ hm
      rw [subCode_cons_match n c rest hm, hR5]
      rw [hdec, ← List.append_assoc] at h
      have hfwd := (scanQuoted_none_append (LIT_CODE ++ D) R5 (by simp [LIT_CODE])
        (LIT_CODE_digits_chars D hdig)).mp h
      rw [List.append_assoc, ← List.append_assoc]
      refine (scanQuoted_none_append (LIT_CODE ++ natToDigits n) (subCode n R5)
        (by simp [LIT_CODE]) (LIT_CODE_digits_chars _ (natToDigits_all_digit n))).mpr ?_
      refine ⟨?_, scanQuoted_none_subCode n R5 hfwd.2⟩
      rw [subCode_head]
      exact hfwd.1
    · rw [subCode_cons_no n c rest (by simpa using hm)]
      rcases scanQuoted_none_shape c rest h with hnil | hc | ⟨hhead, hrest⟩
      · subst hnil
        rw [subCode_nil]
        rfl
      · exact scanQuoted_none_build c _ (Or.inl hc)
      · refine scanQuoted_none_build c _
          (Or.inr ⟨?_, scanQuoted_none_subCode n rest hrest⟩)
        rw [subCode_head]
        exact hhead
termination_by l => l.length
decreasing_by
  · rw [← hR5]
    exact dropDigits_len _ _
  · simp

/-! #### Walking substitutions and searches over match-free regions -/

theorem subName_walk (v a y : List Char) (ha : ∀ c ∈ a, c ≠ 'v') :
    subName v (a ++ y) = a ++ subName v y := by
  induction a with
  | nil => rfl
  | cons c arest ih =>
    rw [List.cons_append,
      subName_cons_no v c _ (nameMatchAt_false_head _ _ (ha c (List.mem_cons_self _ _))),
      ih fun c' hc' => ha c' (List.mem_cons_of_mem _ hc'), List.cons_append]

theorem subCode_walk (n : Nat) (a y : List Char) (ha : ∀ c ∈ a, c ≠ 'v') :
    subCode n (a ++ y) = a ++ subCode n y := by
  induction a with
  | nil => rfl
  | cons c arest ih =>
    rw [List.cons_append,
      subCode_cons_no n c _ (codeMatchAt_false_head _ _ (ha c (List.mem_cons_self _ _))),
      ih fun c' hc' => ha c' (List.mem_cons_of_mem _ hc'), List.cons_append]

theorem findName_walk (a y : List Char)
    (ha : ∀ i, i < a.length → nameMatchAt (a.drop i ++ y) = false) :
    findName (a ++ y) = findName y := by
  induction a with
  | nil => rfl
  | cons c arest ih =>
    rw [List.cons_append, findName_cons_no c _ (by
      have := ha 0 (by simp)
      rwa [List.drop_zero, List.cons_append] at this)]
    exact ih fun i hi => by
      have := ha (i + 1) (by simpa using Nat.succ_lt_succ hi)
      rwa [List.drop_succ_cons] at this

theorem findCode_walk (a y : List Char)
    (ha : ∀ i, i < a.length → codeMatchAt (a.drop i ++ y) = false) :
    findCode (a ++ y) = findCode y := by
  induction a with
  | nil => rfl
  | cons c arest ih =>
    rw [List.cons_append, findCode_cons_no c _ (by
      have := ha 0 (by simp)
      rwa [List.drop_zero, List.cons_append] at this)]
    exact ih fun i hi => by
      have := ha (i + 1) (by simpa using Nat.succ_lt_succ hi)
      rwa [List.drop_succ_cons] at this

theorem subCode_walkM (n : Nat) (a y : List Char)
    (ha : ∀ i, i < a.length → codeMatchAt (a.drop i ++ y) = false) :
    subCode n (a ++ y) = a ++ subCode n y := by
  induction a with
  | nil => rfl
  | cons c arest ih =>
    rw [List.cons_append, subCode_cons_no n c _ (by
      have := ha 0 (by simp)
      rwa [List.drop_zero, List.cons_append] at this)]
    rw [ih fun i hi => by
      have := ha (i + 1) (by simpa using Nat.succ_lt_succ hi)
      rwa [List.drop_succ_cons] at this, List.cons_append]

theorem subName_walkM (v a y : List Char)
    (ha : ∀ i, i < a.length → nameMatchAt (a.drop i ++ y) = false) :
    subName v (a ++ y) = a ++ subName v y := by
  induction a with
  | nil => rfl
  | cons c arest ih =>
    rw [List.cons_append, subName_cons_no v c _ (by
      have := ha 0 (by simp)
      rwa [List.drop_zero, List.cons_append] at this)]
    rw [ih fun i hi => by
      have := ha (i + 1) (by simpa using Nat.succ_lt_succ hi)
      rwa [List.drop_succ_cons] at this, List.cons_append]

/-! #### A failed match at a position stays failed after substituting the tail -/

theorem codeMatchAt_cons_subName (v : List Char) (c : Char) (rest : List Char)
    (h : codeMatchAt (c :: rest) = false) : codeMatchAt (c :: subName v rest) = false := by
  rw [codeMatchAt_ext (c :: subName v rest) (c :: rest) (by
    rw [List.take_succ_cons, List.take_succ_cons, subName_take v rest 12 (by omega)])]
  exact h

theorem codeMatchAt_cons_subCode (n : Nat) (c : Char) (rest : List Char)
    (h : codeMatchAt (c :: rest) = false) : codeMatchAt (c :: subCode n rest) = false := by
  rw [codeMatchAt_ext (c :: subCode n rest) (c :: rest) (by
    rw [List.take_succ_cons, List.take_succ_cons, subCode_take n rest 12 (by omega)])]
  exact h

/-- The 12 characters of the versionName literal after its leading `v`. -/
theorem ntail_no_v : ∀ c ∈ "ersionName \"".data, c ≠ 'v' := by decide

theorem rest_decomp_of_take13 (c : Char) (rest : List Char)
    (h13 : (c :: rest).take 13 = LIT_NAME) :
    rest = "ersionName \"".data ++ (c :: rest).drop 13 := by
  have hfull : c :: rest = LIT_NAME ++ (c :: rest).drop 13 := by
    conv_lhs => rw [show c :: rest = (c :: rest).take 13 ++ (c :: rest).drop 13 from
      (List.take_append_drop 13 (c :: rest)).symm, h13]
  rw [show LIT_NAME = 'v' :: "ersionName \"".data from rfl, List.cons_append,
    List.cons.injEq] at hfull
  exact hfull.2

theorem nameMatchAt_cons_subName (v : List Char) (c : Char) (rest : List Char)
    (h : nameMatchAt (c :: rest) = false) : nameMatchAt (c :: subName v rest) = false := by
  rw [Bool.eq_false_iff]
  intro hm
  rw [nameMatchAt_iff] at hm
  obtain ⟨h13, hscan⟩ := hm
  have ht : (c :: subName v rest).take 13 = (c :: rest).take 13 := by
    rw [List.take_succ_cons, List.take_succ_cons, subName_take v rest 12 (by omega)]
  rw [ht] at h13
  have hno : scanQuoted ((c :: rest).drop 13) = none := by
    rcases hs : scanQuoted ((c :: rest).drop 13) with _ | p
    · rfl
    · exfalso
      rw [Bool.eq_false_iff] at h
      exact h (nameMatchAt_iff _ |>.mpr ⟨h13, by rw [hs]; rfl⟩)
  have hrest := rest_decomp_of_take13 c rest h13
  have hsub : (c :: subName v rest).drop 13 = subName v ((c :: rest).drop 13) := by
    rw [List.drop_succ_cons]
    conv_lhs => rw [hrest, subName_walk v _ _ ntail_no_v]
    rw [show (12 : Nat) = ("ersionName \"".data).length from rfl, List.drop_left]
  rw [hsub, scanQuoted_none_subName v _ hno] at hscan
  cases hscan

theorem nameMatchAt_cons_subCode (n : Nat) (c : Char) (rest : List Char)
    (h : nameMatchAt (c :: rest) = false) : nameMatchAt (c :: subCode n rest) = false := by
  rw [Bool.eq_false_iff]
  intro hm
  rw [nameMatchAt_iff] at hm
  obtain ⟨h13, hscan⟩ := hm
  have ht : (c :: subCode n rest).take 13 = (c :: rest).take 13 := by
    rw [List.take_succ_cons, List.take_succ_cons, subCode_take n rest 12 (by omega)]
  rw [ht] at h13
  have hno : scanQuoted ((c :: rest).drop 13) = none := by
    rcases hs : scanQuoted ((c :: rest).drop 13) with _ | p
    · rfl
    · exfalso
      rw [Bool.eq_false_iff] at h
      exact h (nameMatchAt_iff _ |>.mpr ⟨h13, by rw [hs]; rfl⟩)
  have hrest := rest_decomp_of_take13 c rest h13
  have h12v : ∀ c' ∈ "ersionName \"".data, c' ≠ 'v' := ntail_no_v
  have hsub : (c :: subCode n rest).drop 13 = subCode n ((c :: rest).drop 13) := by
    rw [List.drop_succ_cons]
    conv_lhs => rw [hrest, subCode_walk n _ _ h12v]
    rw [show (12 : Nat) = ("ersionName \"".data).length from rfl, List.drop_left]
  rw [hsub, scanQuoted_none_subCode n _ hno] at hscan
  cases hscan

/-! #### The two substitution main theorems -/

/-- `re.sub` for versionCode: afterwards the leftmost versionCode match reads
`n` exactly when the original text had any versionCode match. -/
theorem findCode_subCode (n : Nat) : ∀ t,
    findCode (subCode n t) = (findCode t).map fun _ => n := by
  intro t
  induction t with
  | nil => rw [subCode_nil]; rfl
  | cons c rest ih =>
    by_cases hm : codeMatchAt (c :: rest) = true
    · obtain ⟨D, R5, hdec, hD, hdig, hnd, hcd, hR5⟩ := codeMatchAt_decompE _ hm
      rw [subCode_cons_match n c rest hm, hR5, findCode_cons_match c rest hm]
      have hndsub : nonDigitHead (subCode n R5) = true := by
        rw [nonDigitHead_congr _ R5 (subCode_head n R5)]
        exact hnd
      obtain ⟨hb1, hb2, -⟩ := codeMatchAt_build (natToDigits n) (subCode n R5)
        (natToDigits_ne_nil n) (natToDigits_all_digit n) hndsub
      rw [List.append_assoc, findCode_of_match _ hb1, hb2, natOfDigits_natToDigits,
        Option.map_some']
    · rw [subCode_cons_no n c rest (by simpa using hm),
        findCode_cons_no c rest (by simpa using hm),
        findCode_cons_no c _ (codeMatchAt_cons_subCode n c rest (by simpa using hm)), ih]

/-- `re.sub` for versionName: afterwards the leftmost versionName content is the
substituted string exactly when the original text had any versionName match. -/
theorem findName_subName (v : List Char) (hv : v ≠ []) (hnl : ∀ c ∈ v, c ≠ '\n')
    (hnq : ∀ c ∈ v, c ≠ '"') : ∀ t,
    findName (subName v t) = (findName t).map fun _ => v := by
  intro t
  induction t with
  | nil => rw [subName_nil]; rfl
  | cons c rest ih =>
    by_cases hm : nameMatchAt (c :: rest) = true
    · rcases hscan : scanQuoted ((c :: rest).drop 13) with _ | p
      · rw [nameMatchAt_iff, hscan] at hm
        exact absurd hm.2 (by simp)
      rw [subName_cons_match v c rest p hm hscan, findName_cons_match c rest hm, hscan]
      have hY : scanQuoted ((LIT_NAME ++ v ++ '"' :: subName v p.2).drop 13) =
          some (v, subName v p.2) := by
        rw [List.append_assoc, show (13 : Nat) = LIT_NAME.length from rfl, List.drop_left]
        exact scanQuoted_append v _ hv hnl fun c' hc' => hnq c' (List.mem_of_mem_tail hc')
      have hmY : nameMatchAt (LIT_NAME ++ v ++ '"' :: subName v p.2) = true := by
        rw [nameMatchAt_iff, hY]
        refine ⟨?_, rfl⟩
        rw [List.append_assoc, show (13 : Nat) = LIT_NAME.length from rfl, List.take_left]
      rw [findName_of_match _ hmY, hY]
      rfl
    · rw [subName_cons_no v c rest (by simpa using hm),
        findName_cons_no c rest (by simpa using hm),
        findName_cons_no c _ (nameMatchAt_cons_subName v c rest (by simpa using hm)), ih]

/-! #### Positional match-freeness of literal regions -/

theorem head?_append_of_ne_nil {α : Type} (a x : List α) (h : a ≠ []) :
    (a ++ x).head? = a.head? := by
  rcases a with _ | ⟨c, a⟩
  · exact absurd rfl h
  · rfl

theorem codeMatchAt_drops_of_no_v (l : List Char) (h : ∀ c ∈ l, c ≠ 'v') :
    ∀ i, codeMatchAt (l.drop i) = false := by
  intro i
  rcases hd : l.drop i with _ | ⟨c, rest⟩
  · decide
  · refine codeMatchAt_false_head c rest (h c ?_)
    have : c ∈ l.drop i := by rw [hd]; exact List.mem_cons_self _ _
    exact List.mem_of_mem_drop this

theorem findCode_none_drops (l : List Char) (h : findCode l = none) :
    ∀ i, codeMatchAt (l.drop i) = false := by
  induction l with
  | nil => intro i; rw [List.drop_nil]; decide
  | cons c rest ih =>
    intro i
    by_cases hm : codeMatchAt (c :: rest) = true
    · rw [findCode_cons_match c rest hm] at h
      cases h
    · rcases i with _ | i
      · rw [List.drop_zero]
        simpa using hm
      · rw [List.drop_succ_cons]
        rw [findCode_cons_no c rest (by simpa using hm)] at h
        exact ih h i

/-- No versionCode match starts anywhere inside `LIT_NAME ++ (w ++ ['"'])` when
`w` itself is versionCode-free, whatever follows. -/
theorem no_code_in_quoted (w q : List Char) (hw : ∀ i, codeMatchAt (w.drop i) = false) :
    ∀ i, i < (LIT_NAME ++ (w ++ ['"'])).length →
      codeMatchAt ((LIT_NAME ++ (w ++ ['"'])).drop i ++ q) = false := by
  intro i hi
  rw [List.drop_append_eq_append_drop]
  rcases Nat.lt_or_ge i 13 with h13 | h13
  · rcases Nat.eq_zero_or_pos i with h0 | h0
    · subst h0
      rw [List.drop_zero, show (0 - LIT_NAME.length : Nat) = 0 from rfl, List.drop_zero,
        List.append_assoc, List.append_assoc,
        show ['"'] ++ q = '"' :: q from rfl]
      exact codeMatchAt_false_LIT_NAME _
    · have hne : LIT_NAME.drop i ≠ [] := by
        intro he
        have := congrArg List.length he
        rw [List.length_drop] at this
        simp only [List.length_nil] at this
        have : LIT_NAME.length = 13 := rfl
        omega
      have hhead : ((LIT_NAME.drop i ++ (w ++ ['"']).drop (i - LIT_NAME.length)) ++ q).head? =
          LIT_NAME[i]? := by
        rw [head?_append_of_ne_nil _ q (by simp [hne]), head?_append_of_ne_nil _ _ hne,
          List.head?_drop]
      have hnv : LIT_NAME[i]? ≠ some 'v' := by
        interval_cases i <;> decide
      rcases hg : LIT_NAME[i]? with _ | c
      · rw [hg] at hhead
        rcases hx : (LIT_NAME.drop i ++ (w ++ ['"']).drop (i - LIT_NAME.length)) ++ q with
          _ | ⟨y, ys⟩
        · decide
        · rw [hx, List.head?_cons] at hhead
          cases hhead
      · rw [hg] at hhead
        exact codeMatchAt_head? _ c hhead fun he => hnv (he ▸ hg)
  · have hdrop13 : LIT_NAME.drop i = [] := by
      apply List.drop_eq_nil_of_le
      show LIT_NAME.length ≤ i
      exact h13
    rw [hdrop13, List.nil_append]
    have hlen : i - LIT_NAME.length ≤ w.length := by
      have h1 : (LIT_NAME ++ (w ++ ['"'])).length = LIT_NAME.length + w.length + 1 := by
        simp
        omega
      rw [h1] at hi
      omega
    rw [List.drop_append_eq_append_drop]
    rcases Nat.lt_or_ge (i - LIT_NAME.length) w.length with hw' | hw'
    · have h0 : i - LIT_NAME.length - w.length = 0 := by omega
      rw [h0, List.drop_zero, List.append_assoc,
        show (['"'] : List Char) ++ q = '"' :: q from rfl]
      rw [Bool.eq_false_iff]
      intro hcm
      have := codeMatchAt_quote _ _ hcm
      rw [hw (i - LIT_NAME.length)] at this
      cases this
    · have heq : i - LIT_NAME.length = w.length := by omega
      rw [heq, List.drop_eq_nil_of_le (le_refl w.length), List.nil_append,
        show (w.length - w.length : Nat) = 0 from by omega, List.drop_zero,
        show (['"'] : List Char) ++ q = '"' :: q from rfl]
      exact codeMatchAt_false_head _ _ (by decide)

/-- No versionName match starts anywhere inside `LIT_CODE ++ D` for a digit run
`D`, whatever follows. -/
theorem no_name_in_code (D x : List Char) (hdig : ∀ c ∈ D, c.isDigit = true) :
    ∀ i, i < (LIT_CODE ++ D).length →
      nameMatchAt ((LIT_CODE ++ D).drop i ++ x) = false := by
  intro i hi
  rw [List.drop_append_eq_append_drop]
  rcases Nat.lt_or_ge i 12 with h12 | h12
  · rcases Nat.eq_zero_or_pos i with h0 | h0
    · subst h0
      rw [List.drop_zero, show (0 - LIT_CODE.length : Nat) = 0 from rfl, List.drop_zero,
        List.append_assoc]
      exact nameMatchAt_false_LIT_CODE _
    · have hne : LIT_CODE.drop i ≠ [] := by
        intro he
        have := congrArg List.length he
        rw [List.length_drop] at this
        simp only [List.length_nil] at this
        have h12' : LIT_CODE.length = 12 := rfl
        omega
      have hhead : ((LIT_CODE.drop i ++ D.drop (i - LIT_CODE.length)) ++ x).head? =
          LIT_CODE[i]? := by
        rw [head?_append_of_ne_nil _ x (by simp [hne]), head?_append_of_ne_nil _ _ hne,
          List.head?_drop]
      have hnv : LIT_CODE[i]? ≠ some 'v' := by
        interval_cases i <;> decide
      rcases hg : LIT_CODE[i]? with _ | c
      · rw [hg] at hhead
        rcases hx : (LIT_CODE.drop i ++ D.drop (i - LIT_CODE.length)) ++ x with _ | ⟨y, ys⟩
        · decide
        · rw [hx, List.head?_cons] at hhead
          cases hhead
      · rw [hg] at hhead
        exact nameMatchAt_head? _ c hhead fun he => hnv (he ▸ hg)
  · have hdrop12 : LIT_CODE.drop i = [] := by
      apply List.drop_eq_nil_of_le
      show LIT_CODE.length ≤ i
      exact h12
    rw [hdrop12, List.nil_append]
    have hlen : i - LIT_CODE.length < D.length := by
      rw [List.length_append] at hi
      have h12' : LIT_CODE.length = 12 := rfl
      omega
    have hne : D.drop (i - LIT_CODE.length) ≠ [] := by
      intro he
      have := congrArg List.length he
      rw [List.length_drop] at this
      simp only [List.length_nil] at this
      omega
    have hhead : (D.drop (i - LIT_CODE.length) ++ x).head? = D[i - LIT_CODE.length]? := by
      rw [head?_append_of_ne_nil _ _ hne, List.head?_drop]
    rcases hg : D[i - LIT_CODE.length]? with _ | c
    · rw [List.getElem?_eq_none_iff] at hg
      omega
    · rw [hg] at hhead
      have hcmem : c ∈ D := by
        rcases List.getElem?_eq_some_iff.mp hg with ⟨hlt, hval⟩
        exact hval ▸ List.getElem_mem hlt
      exact nameMatchAt_head? _ c hhead (digit_not_special c (hdig c hcmem)).2.2.1

theorem nameMatchAt_decompE (c : Char) (rest : List Char) (p : List Char × List Char)
    (hm : nameMatchAt (c :: rest) = true)
    (hscan : scanQuoted ((c :: rest).drop 13) = some p) :
    c :: rest = (LIT_NAME ++ (p.1 ++ ['"'])) ++ p.2 ∧ p.1 ≠ [] ∧
      (∀ x ∈ p.1, x ≠ '\n') ∧ ∀ x ∈ p.1.tail, x ≠ '"' := by
  have h13 : (c :: rest).take 13 = LIT_NAME := ((nameMatchAt_iff _).mp hm).1
  obtain ⟨hdec, hne, hnl, hnq⟩ := scanQuoted_decomp _ _ _ hscan
  refine ⟨?_, hne, hnl, hnq⟩
  conv_lhs => rw [show c :: rest = (c :: rest).take 13 ++ (c :: rest).drop 13 from
    (List.take_append_drop 13 (c :: rest)).symm, h13, hdec]
  simp

/-- Substituting the versionName pattern does not move or change the leftmost
versionCode match, provided no versionName content contains a versionCode
match and the substituted string has no `v` (true of any `x.y.z` version). -/
theorem findCode_subName (v : List Char) (hvv : ∀ c ∈ v, c ≠ 'v') : ∀ t,
    (∀ w ∈ nameContents t, findCode w = none) →
    findCode (subName v t) = findCode t
  | [] => fun _ => by rw [subName_nil]
  | c :: rest => fun hΨ => by
    by_cases hm : nameMatchAt (c :: rest) = true
    · rcases hscan : scanQuoted ((c :: rest).drop 13) with _ | p
      · exact absurd ((nameMatchAt_iff _).mp hm).2 (by rw [hscan]; simp)
      obtain ⟨hfull, hne, hnl, hnq⟩ := nameMatchAt_decompE c rest p hm hscan
      have hΨ' := hΨ
      rw [nameContents_cons_match c rest p hm hscan] at hΨ'
      have hw1 : findCode p.1 = none := hΨ' p.1 (List.mem_cons_self _ _)
      have hΨ2 : ∀ w ∈ nameContents p.2, findCode w = none :=
        fun w hw => hΨ' w (List.mem_cons_of_mem _ hw)
      have hRHS : findCode (c :: rest) = findCode p.2 := by
        conv_lhs => rw [hfull]
        exact findCode_walk _ _ (no_code_in_quoted p.1 p.2 (findCode_none_drops _ hw1))
      rw [subName_cons_match v c rest p hm hscan,
        show LIT_NAME ++ v ++ '"' :: subName v p.2 =
          (LIT_NAME ++ (v ++ ['"'])) ++ subName v p.2 from by simp,
        findCode_walk _ _ (no_code_in_quoted v (subName v p.2)
          (codeMatchAt_drops_of_no_v v hvv)), hRHS]
      exact findCode_subName v hvv p.2 hΨ2
    · by_cases hcm : codeMatchAt (c :: rest) = true
      · obtain ⟨D, R5, hdec, hD, hdig, hnd, hcd, hR5⟩ := codeMatchAt_decompE _ hcm
        have hcv : c = 'v' := by
          have := hdec
          rw [show LIT_CODE = 'v' :: "ersionCode ".data from rfl, List.cons_append,
            List.cons.injEq] at this
          exact this.1
        have hrest : rest = "ersionCode ".data ++ (D ++ R5) := by
          have := hdec
          rw [show LIT_CODE = 'v' :: "ersionCode ".data from rfl, List.cons_append,
            List.cons.injEq] at this
          exact this.2
        rw [subName_cons_no v c rest (by simpa using hm)]
        have hwalk : subName v rest = "ersionCode ".data ++ (D ++ subName v R5) := by
          conv_lhs => rw [hrest]
          rw [show "ersionCode ".data ++ (D ++ R5) = ("ersionCode ".data ++ D) ++ R5 from
            by simp, subName_walk v _ _ ?noV, List.append_assoc]
          case noV =>
            intro c' hc'
            rcases List.mem_append.mp hc' with hc' | hc'
            · have hall : ∀ a ∈ "ersionCode ".data, a ≠ 'v' := by decide
              exact hall c' hc'
            · exact (digit_not_special c' (hdig c' hc')).2.2.1
        rw [hwalk]
        subst hcv
        have hndsub : nonDigitHead (subName v R5) = true := by
          rw [nonDigitHead_congr _ R5 (subName_head v R5)]
          exact hnd
        obtain ⟨hb1, hb2, -⟩ := codeMatchAt_build D (subName v R5) hD hdig hndsub
        rw [show 'v' :: ("ersionCode ".data ++ (D ++ subName v R5)) =
          LIT_CODE ++ (D ++ subName v R5) from rfl, findCode_of_match _ hb1, hb2,
          findCode_cons_match _ _ hcm, hcd]
      · rw [subName_cons_no v c rest (by simpa using hm),
          findCode_cons_no c _ (codeMatchAt_cons_subName v c rest (by simpa using hcm)),
          findCode_cons_no c rest (by simpa using hcm)]
        exact findCode_subName v hvv rest
          (by rwa [nameContents_cons_no c rest (by simpa using hm)] at hΨ)
termination_by t => t.length
decreasing_by
  · have hlen := scanQuoted_rest_len _ _ hscan
    simp only [List.length_drop, List.length_cons] at hlen ⊢
    omega
  · simp

/-- Substituting the versionCode pattern does not move or change the leftmost
versionName match, provided the leftmost versionName content contains no
versionCode match. -/
theorem findName_subCode (n : Nat) : ∀ t,
    (∀ w, findName t = some w → findCode w = none) →
    findName (subCode n t) = findName t
  | [] => fun _ => by rw [subCode_nil]
  | c :: rest => fun hΦ => by
    by_cases hcm : codeMatchAt (c :: rest) = true
    · obtain ⟨D, R5, hdec, hD, hdig, hnd, hcd, hR5⟩ := codeMatchAt_decompE _ hcm
      rw [subCode_cons_match n c rest hcm, hR5]
      have hRHS : findName (c :: rest) = findName R5 := by
        conv_lhs => rw [hdec, ← List.append_assoc]
        exact findName_walk _ _ (no_name_in_code D R5 hdig)
      rw [show LIT_CODE ++ natToDigits n ++ subCode n R5 =
          (LIT_CODE ++ natToDigits n) ++ subCode n R5 from by simp,
        findName_walk _ _ (no_name_in_code (natToDigits n) _ (natToDigits_all_digit n)),
        hRHS]
      exact findName_subCode n R5 fun w hw => hΦ w (by rw [hRHS]; exact hw)
    · by_cases hnm : nameMatchAt (c :: rest) = true
      · rcases hscan : scanQuoted ((c :: rest).drop 13) with _ | p
        · exact absurd ((nameMatchAt_iff _).mp hnm).2 (by rw [hscan]; simp)
        obtain ⟨hfull, hne, hnl, hnq⟩ := nameMatchAt_decompE c rest p hnm hscan
        have hfst : findName (c :: rest) = some p.1 := by
          rw [findName_cons_match c rest hnm, hscan]
          rfl
        have hw1 : findCode p.1 = none := hΦ p.1 hfst
        have hsub : subCode n (c :: rest) = (LIT_NAME ++ (p.1 ++ ['"'])) ++ subCode n p.2 := by
          conv_lhs => rw [hfull]
          exact subCode_walkM n _ _ (no_code_in_quoted p.1 p.2 (findCode_none_drops _ hw1))
        rw [hsub, hfst,
          show (LIT_NAME ++ (p.1 ++ ['"'])) ++ subCode n p.2 =
            LIT_NAME ++ (p.1 ++ '"' :: subCode n p.2) from by simp]
        have hscan2 : scanQuoted (p.1 ++ '"' :: subCode n p.2) = some (p.1, subCode n p.2) :=
          scanQuoted_append p.1 _ hne hnl hnq
        have hm2 : nameMatchAt (LIT_NAME ++ (p.1 ++ '"' :: subCode n p.2)) = true := by
          rw [nameMatchAt_iff]
          constructor
          · rw [show (13 : Nat) = LIT_NAME.length from rfl, List.take_left]
          · rw [show (13 : Nat) = LIT_NAME.length from rfl, List.drop_left, hscan2]
            rfl
        rw [findName_of_match _ hm2, show (13 : Nat) = LIT_NAME.length from rfl,
          List.drop_left, hscan2]
        rfl
      · rw [subCode_cons_no n c rest (by simpa using hcm),
          findName_cons_no c _ (nameMatchAt_cons_subCode n c rest (by simpa using hnm)),
          findName_cons_no c rest (by simpa using hnm)]
        exact findName_subCode n rest fun w hw =>
          hΦ w (by rw [findName_cons_no c rest (by simpa using hnm)]; exact hw)
termination_by t => t.length
decreasing_by
  · rw [← hR5]
    exact dropDigits_len _ _
  · simp

theorem findCode_none_of_no_v (l : List Char) (h : ∀ c ∈ l, c ≠ 'v') :
    findCode l = none := by
  induction l with
  | nil => rfl
  | cons c rest ih =>
    rw [findCode_cons_no c rest (codeMatchAt_false_head c rest (h c (List.mem_cons_self _ _)))]
    exact ih fun c' hc' => h c' (List.mem_cons_of_mem _ hc')

theorem subCode_id_of_none (n : Nat) (l : List Char) (h : findCode l = none) :
    subCode n l = l := by
  induction l with
  | nil => rw [subCode_nil]
  | cons c rest ih =>
    by_cases hm : codeMatchAt (c :: rest) = true
    · rw [findCode_cons_match c rest hm] at h
      cases h
    · rw [findCode_cons_no c rest (by simpa using hm)] at h
      rw [subCode_cons_no n c rest (by simpa using hm), ih h]

theorem nameContents_eq_nil (l : List Char) (h : findName l = none) :
    nameContents l = [] := by
  induction l with
  | nil => exact nameContents_nil
  | cons c rest ih =>
    by_cases hm : nameMatchAt (c :: rest) = true
    · exfalso
      rcases hscan : scanQuoted ((c :: rest).drop 13) with _ | p
      · exact absurd ((nameMatchAt_iff _).mp hm).2 (by rw [hscan]; simp)
      · rw [findName_cons_match c rest hm, hscan] at h
        cases h
    · rw [nameContents_cons_no c rest (by simpa using hm)]
      rw [findName_cons_no c rest (by simpa using hm)] at h
      exact ih h

/-! ### Claim C2 (update_build_gradle) -/

/-- C2 (amended): for a build-config file in which no versionName string
contains a versionCode pattern, a bump with a valid `x.y.z` version sets the
(leftmost) versionCode to its pre-run value plus one when one is present —
and adds none when none is present (rather than writing `0+1`) — and sets the
(leftmost) versionName to the supplied version when one is present. -/
theorem claim_C2_amended (v text : List Char) (hv : strictSemver v = true)
    (hΨ : ∀ w ∈ nameContents text, findCode w = none) :
    (∀ cOld, findCode text = some cOld →
      findCode (update_build_gradle v text) = some (cOld + 1)) ∧
    (findCode text = none → findCode (update_build_gradle v text) = none) ∧
    (∀ w, findName text = some w → findName (update_build_gradle v text) = some v) ∧
    (findName text = none → findName (update_build_gradle v text) = none) := by
  have hchars := strictSemver_no_special v hv
  have hvne : v ≠ [] := (strictSemver_chars v hv).1
  have hT5 : findCode (subName v text) = findCode text :=
    findCode_subName v (fun c hc => (hchars c hc).1) text hΨ
  have hT1 : findCode (update_build_gradle v text) =
      (findCode text).map fun _ => (findCode text).getD 0 + 1 := by
    rw [update_build_gradle, findCode_subCode, hT5]
  have hT2 : findName (subName v text) = (findName text).map fun _ => v :=
    findName_subName v hvne (fun c hc => (hchars c hc).2.2) (fun c hc => (hchars c hc).2.1)
      text
  have hT6 : findName (update_build_gradle v text) = (findName text).map fun _ => v := by
    rw [update_build_gradle, findName_subCode, hT2]
    intro w hw
    rw [hT2] at hw
    rcases hf : findName text with _ | w0
    · rw [hf] at hw
      cases hw
    · rw [hf, Option.map_some', Option.some_inj] at hw
      subst hw
      exact findCode_none_of_no_v v fun c hc => (hchars c hc).1
  refine ⟨?_, ?_, ?_, ?_⟩
  · intro cOld hc
    rw [hT1, hc]
    rfl
  · intro hc
    rw [hT1, hc]
    rfl
  · intro w hw
    rw [hT6, hw]
    rfl
  · intro hw
    rw [hT6, hw]
    rfl

/-- C2 as stated is false on the code: a file with no versionCode pattern gets
none added (its versionCode is not 0+1 afterwards), and a versionCode pattern
that sits inside the versionName string is destroyed by the versionName
substitution rather than incremented. -/
theorem claim_C2_counterexample :
    (update_build_gradle "1.2.3".data ['x'] = ['x'] ∧
      ¬ (findCode (update_build_gradle "1.2.3".data ['x'])).getD 0 =
          (findCode ['x']).getD 0 + 1 ∧
      ¬ findName (update_build_gradle "1.2.3".data ['x']) = some "1.2.3".data) ∧
    (findCode "versionName \"versionCode 5\"".data = some 5 ∧
      ¬ (findCode (update_build_gradle "1.2.3".data
            "versionName \"versionCode 5\"".data)).getD 0 =
          (findCode "versionName \"versionCode 5\"".data).getD 0 + 1) := by
  have h1 : update_build_gradle "1.2.3".data ['x'] = ['x'] := by
    rw [update_build_gradle,
      subName_cons_no _ _ _ (by decide), subName_nil,
      subCode_cons_no _ _ _ (by decide), subCode_nil]
  have h2 : update_build_gradle "1.2.3".data "versionName \"versionCode 5\"".data =
      "versionName \"1.2.3\"".data := by
    rw [update_build_gradle,
      subName_cons_match "1.2.3".data 'v' _ ("versionCode 5".data, []) (by decide)
        (by decide),
      subName_nil, subCode_id_of_none _ _ (by decide)]
    decide
  refine ⟨⟨h1, ?_, ?_⟩, ?_, ?_⟩
  · rw [h1]
    decide
  · rw [h1]
    decide
  · decide
  · rw [h2]
    decide

/-- C2 witness at a concrete gradle file containing both patterns. -/
theorem claim_C2_witness :
    strictSemver "1.2.3".data = true ∧
    (∀ w ∈ nameContents "versionName \"9\"\nversionCode 7\n".data, findCode w = none) ∧
    ((∀ cOld, findCode "versionName \"9\"\nversionCode 7\n".data = some cOld →
      findCode (update_build_gradle "1.2.3".data
        "versionName \"9\"\nversionCode 7\n".data) = some (cOld + 1)) ∧
    (findCode "versionName \"9\"\nversionCode 7\n".data = none →
      findCode (update_build_gradle "1.2.3".data
        "versionName \"9\"\nversionCode 7\n".data) = none) ∧
    (∀ w, findName "versionName \"9\"\nversionCode 7\n".data = some w →
      findName (update_build_gradle "1.2.3".data
        "versionName \"9\"\nversionCode 7\n".data) = some "1.2.3".data) ∧
    (findName "versionName \"9\"\nversionCode 7\n".data = none →
      findName (update_build_gradle "1.2.3".data
        "versionName \"9\"\nversionCode 7\n".data) = none)) := by
  have hnc : nameContents "versionName \"9\"\nversionCode 7\n".data = [['9']] := by
    rw [nameContents_cons_match 'v' _ (['9'], "\nversionCode 7\n".data) (by decide)
      (by decide), nameContents_eq_nil _ (by decide)]
  have hΨ : ∀ w ∈ nameContents "versionName \"9\"\nversionCode 7\n".data,
      findCode w = none := by
    rw [hnc]
    intro w hw
    rw [List.mem_singleton] at hw
    subst hw
    decide
  exact ⟨by decide, hΨ, claim_C2_amended "1.2.3".data _ (by decide) hΨ⟩

/-! ### JSON model: `json.loads` and `json.dumps(..., indent=k, ensure_ascii=False)`

Objects are insertion-ordered association lists built with `insertKey`
(duplicate keys collapse onto the first occurrence, last value wins — Python
`dict` semantics).  Numbers are modelled as integers; floats are outside this
model (a document containing one simply does not parse here).  `\uXXXX`
escapes decode to the scalar value (surrogates are rejected; CPython's
surrogate-pair handling is outside the model).  The parser recurses on a fuel
argument so that the kernel can evaluate it; `length + 1` fuel suffices since
every nested parse first consumes at least one character. -/

inductive JVal where
  | jnull
  | jbool (b : Bool)
  | jnum (n : Int)
  | jstr (s : List Char)
  | jarr (elems : List JVal)
  | jobj (fields : List (List Char × JVal))

/-- Lowercase hex digit, as CPython's `\u00xx` escapes print it. -/
def hexDigitChar (n : Nat) : Char := Char.ofNat (if n < 10 then 48 + n else 87 + n)

/-- One character as `json.dumps(ensure_ascii=False)` writes it. -/
def escapeChar (c : Char) : List Char :=
  if c = '"' then ['\\', '"']
  else if c = '\\' then ['\\', '\\']
  else if c = '\n' then ['\\', 'n']
  else if c = '\t' then ['\\', 't']
  else if c = '\r' then ['\\', 'r']
  else if c = Char.ofNat 8 then ['\\', 'b']
  else if c = Char.ofNat 12 then ['\\', 'f']
  else if c.toNat < 32 then
    ['\\', 'u', '0', '0', hexDigitChar (c.toNat / 16), hexDigitChar (c.toNat % 16)]
  else [c]

def escapeStr : List Char → List Char
  | [] => []
  | c :: r => escapeChar c ++ escapeStr r

def quoteStr (s : List Char) : List Char := '"' :: (escapeStr s ++ ['"'])

/-- `repr` of an int. -/
def intRepr (n : Int) : List Char :=
  if n < 0 then '-' :: natToDigits n.natAbs else natToDigits n.natAbs

/-- `n` spaces (`json.dumps` always indents with spaces). -/
def sp (n : Nat) : List Char := List.replicate n ' '

mutual
/-- `json.dumps(j, indent=k, ensure_ascii=False)` at nesting level `lvl`. -/
def dumpsVal (k lvl : Nat) : JVal → List Char
  | .jnull => "null".data
  | .jbool true => "true".data
  | .jbool false => "false".data
  | .jnum n => intRepr n
  | .jstr s => quoteStr s
  | .jarr [] => "[]".data
  | .jarr (x :: xs) =>
    '[' :: '\n' :: (sp (k * (lvl + 1)) ++
      (dumpsItems k (lvl + 1) x xs ++ ('\n' :: (sp (k * lvl) ++ [']']))))
  | .jobj [] => ['{', '}']
  | .jobj (f :: fs) =>
    '{' :: '\n' :: (sp (k * (lvl + 1)) ++
      (dumpsFields k (lvl + 1) f fs ++ ('\n' :: (sp (k * lvl) ++ ['}']))))
termination_by j => sizeOf j
def dumpsItems (k lvl : Nat) (x : JVal) : List JVal → List Char
  | [] => dumpsVal k lvl x
  | y :: ys => dumpsVal k lvl x ++ (',' :: '\n' :: (sp (k * lvl) ++ dumpsItems k lvl y ys))
termination_by ys => sizeOf x + sizeOf ys
def dumpsFields (k lvl : Nat) (f : List Char × JVal) : List (List Char × JVal) → List Char
  | [] => quoteStr f.1 ++ (':' :: ' ' :: dumpsVal k lvl f.2)
  | g :: gs =>
    (quoteStr f.1 ++ (':' :: ' ' :: dumpsVal k lvl f.2)) ++
      (',' :: '\n' :: (sp (k * lvl) ++ dumpsFields k lvl g gs))
termination_by gs => sizeOf f + sizeOf gs
decreasing_by
  all_goals obtain ⟨a, b⟩ := f
  all_goals simp
  all_goals omega
end

/-- JSON whitespace. -/
def isJWs (c : Char) : Bool := c == ' ' || c == '\t' || c == '\n' || c == '\r'

def skipWs (l : List Char) : List Char := l.dropWhile isJWs

def hexVal (c : Char) : Option Nat :=
  if '0' ≤ c ∧ c ≤ '9' then some (c.toNat - 48)
  else if 'a' ≤ c ∧ c ≤ 'f' then some (c.toNat - 87)
  else if 'A' ≤ c ∧ c ≤ 'F' then some (c.toNat - 55)
  else none

/-- String body after the opening quote: unescape until the closing quote. -/
def parseStrBody : List Char → Option (List Char × List Char)
  | [] => none
  | '"' :: rest => some ([], rest)
  | '\\' :: 'u' :: h1 :: h2 :: h3 :: h4 :: r2 =>
    match hexVal h1, hexVal h2, hexVal h3, hexVal h4 with
    | some a, some b, some c, some d =>
      let code := ((a * 16 + b) * 16 + c) * 16 + d
      if code < 0xD800 then (parseStrBody r2).map fun p => (Char.ofNat code :: p.1, p.2)
      else if 0xE000 ≤ code then
        (parseStrBody r2).map fun p => (Char.ofNat code :: p.1, p.2)
      else none
    | _, _, _, _ => none
  | '\\' :: e :: r =>
    if e = '"' then (parseStrBody r).map fun p => ('"' :: p.1, p.2)
    else if e = '\\' then (parseStrBody r).map fun p => ('\\' :: p.1, p.2)
    else if e = '/' then (parseStrBody r).map fun p => ('/' :: p.1, p.2)
    else if e = 'n' then (parseStrBody r).map fun p => ('\n' :: p.1, p.2)
    else if e = 't' then (parseStrBody r).map fun p => ('\t' :: p.1, p.2)
    else if e = 'r' then (parseStrBody r).map fun p => ('\r' :: p.1, p.2)
    else if e = 'b' then (parseStrBody r).map fun p => (Char.ofNat 8 :: p.1, p.2)
    else if e = 'f' then (parseStrBody r).map fun p => (Char.ofNat 12 :: p.1, p.2)
    else none
  | c :: rest =>
    if c.toNat < 32 then none
    else (parseStrBody rest).map fun p => (c :: p.1, p.2)

/-- A JSON integer literal (digits, no leading zero). -/
def parseNatNum (s : List Char) : Option (Nat × List Char) :=
  if (s.takeWhile Char.isDigit).isEmpty then none
  else if 2 ≤ (s.takeWhile Char.isDigit).length ∧
      (s.takeWhile Char.isDigit).head? = some '0' then none
  else some (natOfDigits (s.takeWhile Char.isDigit), s.dropWhile Char.isDigit)

/-- Python dict construction from a (possibly duplicate-keyed) pair list. -/
def dedupFields (fs : List (List Char × JVal)) : List (List Char × JVal) :=
  fs.foldl (fun acc p => insertKey acc p.1 p.2) []

mutual
def parseVal : Nat → List Char → Option (JVal × List Char)
  | 0, _ => none
  | fuel + 1, s =>
    match skipWs s with
    | [] => none
    | c :: rest =>
      if c = '{' then
        match skipWs rest with
        | '}' :: r2 => some (.jobj [], r2)
        | _ => (parseFieldsRest fuel rest).map fun p => (.jobj (dedupFields p.1), p.2)
      else if c = '[' then
        match skipWs rest with
        | ']' :: r2 => some (.jarr [], r2)
        | _ => (parseItemsRest fuel rest).map fun p => (.jarr p.1, p.2)
      else if c = '"' then
        (parseStrBody rest).map fun p => (.jstr p.1, p.2)
      else if c = 't' then
        match rest with
        | 'r' :: 'u' :: 'e' :: r2 => some (.jbool true, r2)
        | _ => none
      else if c = 'f' then
        match rest with
        | 'a' :: 'l' :: 's' :: 'e' :: r2 => some (.jbool false, r2)
        | _ => none
      else if c = 'n' then
        match rest with
        | 'u' :: 'l' :: 'l' :: r2 => some (.jnull, r2)
        | _ => none
      else if c = '-' then
        (parseNatNum rest).map fun p => (.jnum (-(p.1 : Int)), p.2)
      else
        (parseNatNum (c :: rest)).map fun p => (.jnum (p.1 : Int), p.2)
def parseFieldsRest : Nat → List Char → Option (List (List Char × JVal) × List Char)
  | 0, _ => none
  | fuel + 1, s =>
    match skipWs s with
    | '"' :: r1 =>
      match parseStrBody r1 with
      | none => none
      | some (key, r2) =>
        match skipWs r2 with
        | ':' :: r3 =>
          match parseVal fuel r3 with
          | none => none
          | some (v, r4) =>
            match skipWs r4 with
            | ',' :: r5 => (parseFieldsRest fuel r5).map fun p => ((key, v) :: p.1, p.2)
            | '}' :: r5 => some ([(key, v)], r5)
            | _ => none
        | _ => none
    | _ => none
def parseItemsRest : Nat → List Char → Option (List JVal × List Char)
  | 0, _ => none
  | fuel + 1, s =>
    match parseVal fuel s with
    | none => none
    | some (v, r1) =>
      match skipWs r1 with
      | ',' :: r2 => (parseItemsRest fuel r2).map fun p => (v :: p.1, p.2)
      | ']' :: r2 => some ([v], r2)
      | _ => none
end

/-- `json.loads`. -/
def jparse (t : List Char) : Option JVal :=
  match parseVal (t.length + 1) t with
  | some (j, r) => if (skipWs r).isEmpty then some j else none
  | none => none

/-- Space or tab, the characters of the indent-detection pattern `^([ \t]+)`. -/
def isIndentWs (c : Char) : Bool := c == ' ' || c == '\t'

/-- `re.search(r"^([ \t]+)", text, re.MULTILINE)`: the first leading-whitespace
run, scanning line starts left to right. -/
def detectIndentGo : Bool → List Char → Option (List Char)
  | _, [] => none
  | atStart, c :: rest =>
    if atStart && isIndentWs c then some ((c :: rest).takeWhile isIndentWs)
    else detectIndentGo (c == '\n') rest

def detectIndent (t : List Char) : Option (List Char) := detectIndentGo true t

/-- The `"version"` key. -/
def versionKey : List Char := "version".data

/-- `update_package_json`: parse, overwrite the version field, re-serialize
with the detected indent width, write back with a trailing newline.  `none`
models the uncaught exception paths (malformed JSON, or a non-object document
on which `pkg["version"] = ...` raises `TypeError`). -/
def update_package_json (version text : List Char) : Option (List Char) :=
  match jparse text with
  | some (.jobj fields) =>
    some (dumpsVal (((detectIndent text).map List.length).getD 2) 0
      (.jobj (insertKey fields versionKey (.jstr version))) ++ ['\n'])
  | _ => none

/-! ### bump-version.py: main -/

/-- The bump script's target files: the four manifest slots of `PACKAGE_FILES`
(in list order, `none` = file absent) and the build.gradle slot. -/
structure RepoFiles where
  packages : List (Option (List Char))
  gradle : Option (List Char)
deriving DecidableEq

/-- One iteration of the `for file in PACKAGE_FILES` loop: a missing file is
skipped with a warning; otherwise the file is rewritten, and a parse/type
error (inner `none`) aborts the whole run. -/
def stepPkg (v : List Char) : Option (List Char) → Option (Option (List Char))
  | none => some none
  | some text => (update_package_json v text).map some

/-- The whole manifest loop.  On an exception, `.error` carries the file list
as it stands: already-processed files keep their new contents, the failing
file and everything after it are untouched. -/
def processPackages (v : List Char) : List (Option (List Char)) →
    Except (List (Option (List Char))) (List (Option (List Char)))
  | [] => .ok []
  | f :: fs =>
    match stepPkg v f with
    | none => .error (f :: fs)
    | some f' =>
      match processPackages v fs with
      | .ok fs' => .ok (f' :: fs')
      | .error fs' => .error (f' :: fs')

/-- The work done after the version check: manifests first, build.gradle last;
an uncaught exception means exit code 1 with the gradle file untouched. -/
def applyBump (v : List Char) (fs : RepoFiles) : Nat × RepoFiles :=
  match processPackages v fs.packages with
  | .error ps => (1, ⟨ps, fs.gradle⟩)
  | .ok ps => (0, ⟨ps, fs.gradle.map (update_build_gradle v)⟩)

/-- `main` of bump-version.py on argument list `argv` (without the program
name): wrong argument count or a version failing `re.match` exits 1 before
touching anything. -/
def bumpMain (argv : List (List Char)) (fs : RepoFiles) : Nat × RepoFiles :=
  match argv with
  | [v] => if semverMatchPy v then applyBump v fs else (1, fs)
  | _ => (1, fs)

/-! ### Claim C1 (version-format gate) -/

/-- C1 as stated is false on the code: the pattern `^\d+\.\d+\.\d+$` read with
`$` as end-of-input rejects `"1.2.3\n"`, yet CPython's `re.match` accepts it
(`$` also matches before one trailing newline), so the run proceeds and exits
0 instead of failing. -/
theorem claim_C1_counterexample :
    strictSemver "1.2.3\n".data = false ∧
    bumpMain ["1.2.3\n".data] ⟨[], none⟩ = (0, ⟨[], none⟩) :=
  ⟨by decide, by decide⟩

/-- C1 (amended): an argument that fails the pattern even after allowing one
trailing newline (CPython's `$`) exits 1 with every target file untouched; an
argument matching the strict pattern, or a strict match plus one trailing
newline, proceeds to the update phase. -/
theorem claim_C1_amended (v : List Char) (fs : RepoFiles) :
    (strictSemver v = false → (∀ w, v = w ++ ['\n'] → strictSemver w = false) →
      bumpMain [v] fs = (1, fs)) ∧
    ((strictSemver v = true ∨ ∃ w, v = w ++ ['\n'] ∧ strictSemver w = true) →
      bumpMain [v] fs = applyBump v fs) := by
  constructor
  · intro hs hnl
    have hpy : semverMatchPy v = false := by
      rw [Bool.eq_false_iff]
      intro hp
      rcases (semverMatchPy_iff v).mp hp with h | ⟨w, hw, hsw⟩
      · rw [hs] at h
        cases h
      · rw [hnl w hw] at hsw
        cases hsw
    rw [bumpMain, if_neg (by rw [hpy]; exact fun h => Bool.noConfusion h)]
  · intro h
    have hpy : semverMatchPy v = true := (semverMatchPy_iff v).mpr
      (h.imp id fun ⟨w, hw, hsw⟩ => ⟨w, hw, hsw⟩)
    rw [bumpMain, if_pos hpy]

theorem claim_C1_witness :
    (strictSemver "abc".data = false ∧
      (∀ w, "abc".data = w ++ ['\n'] → strictSemver w = false) ∧
      bumpMain ["abc".data] ⟨[], none⟩ = (1, ⟨[], none⟩)) ∧
    (strictSemver "1.2.3".data = true ∧
      bumpMain ["1.2.3".data] ⟨[], none⟩ = applyBump "1.2.3".data ⟨[], none⟩) := by
  have hnl : ∀ w, "abc".data = w ++ ['\n'] → strictSemver w = false := by
    intro w hw
    exfalso
    have hlast := congrArg List.getLast? hw
    rw [List.getLast?_concat] at hlast
    exact absurd hlast (by decide)
  exact ⟨⟨by decide, hnl, (claim_C1_amended "abc".data ⟨[], none⟩).1 (by decide) hnl⟩,
    ⟨by decide, (claim_C1_amended "1.2.3".data ⟨[], none⟩).2 (Or.inl (by decide))⟩⟩

/-! ### Claim C7 (malformed manifest halts the run) -/

theorem processPackages_append_error (v : List Char) (ps₁ ps₁' ps₂ : List (Option (List Char)))
    (bad : List Char) (h1 : processPackages v ps₁ = .ok ps₁')
    (hbad : update_package_json v bad = none) :
    processPackages v (ps₁ ++ some bad :: ps₂) = .error (ps₁' ++ some bad :: ps₂) := by
  induction ps₁ generalizing ps₁' with
  | nil =>
    rw [processPackages] at h1
    cases h1
    show processPackages v (some bad :: ps₂) = Except.error (some bad :: ps₂)
    rw [processPackages, show stepPkg v (some bad) = none from by rw [stepPkg, hbad]; rfl]
  | cons f fs ih =>
    rw [processPackages] at h1
    rcases hstep : stepPkg v f with _ | f₀
    · rw [hstep] at h1
      cases h1
    rw [hstep] at h1
    rcases hrec : processPackages v fs with fs₀ | fs₀
    · rw [hrec] at h1
      cases h1
    rw [hrec] at h1
    cases h1
    rw [List.cons_append, processPackages, hstep, ih fs₀ hrec, List.cons_append]

/-- C7: a manifest that exists but fails to parse (or is not a JSON object)
halts the run with exit 1; manifests before it in the fixed list keep their
updated contents, while the failing manifest, every later manifest, and the
build-config file are untouched. -/
theorem claim_C7 (v : List Char) (gradle : Option (List Char))
    (ps₁ ps₁' ps₂ : List (Option (List Char))) (bad : List Char)
    (hv : semverMatchPy v = true) (h1 : processPackages v ps₁ = .ok ps₁')
    (hbad : update_package_json v bad = none) :
    bumpMain [v] ⟨ps₁ ++ some bad :: ps₂, gradle⟩ =
      (1, ⟨ps₁' ++ some bad :: ps₂, gradle⟩) := by
  rw [bumpMain, if_pos hv, applyBump]
  rw [show (⟨ps₁ ++ some bad :: ps₂, gradle⟩ : RepoFiles).packages =
    ps₁ ++ some bad :: ps₂ from rfl,
    processPackages_append_error v ps₁ ps₁' ps₂ bad h1 hbad]

theorem claim_C7_witness :
    semverMatchPy "1.2.3".data = true ∧
    processPackages "1.2.3".data [none] = .ok [none] ∧
    update_package_json "1.2.3".data ['{'] = none ∧
    bumpMain ["1.2.3".data]
        ⟨[none] ++ some ['{'] :: [some ['x']], some "versionCode 3".data⟩ =
      (1, ⟨[none] ++ some ['{'] :: [some ['x']], some "versionCode 3".data⟩) :=
  ⟨by decide, rfl, rfl,
    claim_C7 "1.2.3".data (some "versionCode 3".data) [none] [none] [some ['x']] ['{']
      (by decide) rfl rfl⟩

/-! ### Claim C4 (indentation style and trailing newline) -/

theorem update_package_json_eq (v text out : List Char)
    (h : update_package_json v text = some out) :
    ∃ fields, jparse text = some (.jobj fields) ∧
      out = dumpsVal (((detectIndent text).map List.length).getD 2) 0
        (.jobj (insertKey fields versionKey (.jstr v))) ++ ['\n'] := by
  rw [update_package_json] at h
  rcases hp : jparse text with _ | j
  · rw [hp] at h
    cases h
  · rw [hp] at h
    cases j with
    | jobj fields => exact ⟨fields, rfl, (Option.some_inj.mp h).symm⟩
    | jnull => cases h
    | jbool b => cases h
    | jnum n => cases h
    | jstr s => cases h
    | jarr xs => cases h

theorem insertKey_ne_nil {α : Type} (d : List (List Char × α)) (k : List Char) (v : α) :
    ∃ f fs, insertKey d k v = f :: fs := by
  cases d with
  | nil => exact ⟨(k, v), [], rfl⟩
  | cons p rest =>
    obtain ⟨k', v'⟩ := p
    by_cases h : k' = k
    · exact ⟨(k', v), rest, by rw [insertKey, if_pos h]⟩
    · exact ⟨(k', v'), insertKey rest k v, by rw [insertKey, if_neg h]⟩

/-- A rendered field list always starts with the opening quote of its first
key — never with whitespace. -/
theorem dumpsFields_head (k lvl : Nat) (f : List Char × JVal)
    (fs : List (List Char × JVal)) : ∃ r, dumpsFields k lvl f fs = '"' :: r := by
  cases fs with
  | nil =>
    exact ⟨(escapeStr f.1 ++ ['"']) ++ (':' :: ' ' :: dumpsVal k lvl f.2),
      by rw [dumpsFields, quoteStr, List.cons_append]⟩
  | cons g gs =>
    exact ⟨((escapeStr f.1 ++ ['"']) ++ (':' :: ' ' :: dumpsVal k lvl f.2)) ++
      (',' :: '\n' :: (sp (k * lvl) ++ dumpsFields k lvl g gs)),
      by rw [dumpsFields, quoteStr, List.cons_append, List.cons_append]⟩

theorem sp_mem_indentWs (n : Nat) : ∀ c ∈ sp n, isIndentWs c = true := by
  intro c hc
  rw [sp] at hc
  rw [List.eq_of_mem_replicate hc]
  decide

theorem takeWhile_sp_stop (n : Nat) (c : Char) (hc : isIndentWs c = false)
    (tl : List Char) : (sp n ++ c :: tl).takeWhile isIndentWs = sp n := by
  rw [takeWhile_append_all isIndentWs (sp n) (c :: tl) (sp_mem_indentWs n)]
  simp [List.takeWhile_cons, hc]

theorem detectIndentGo_cons_no (b : Bool) (c : Char) (hc : isIndentWs c = false)
    (rest : List Char) : detectIndentGo b (c :: rest) = detectIndentGo (c == '\n') rest := by
  rw [detectIndentGo, if_neg (by rw [hc, Bool.and_false]; exact fun h => Bool.noConfusion h)]

theorem detectIndentGo_sp_stop (m : Nat) (c : Char) (hc : isIndentWs c = false)
    (tl : List Char) : detectIndentGo true (sp (m + 1) ++ c :: tl) = some (sp (m + 1)) := by
  have h1 : sp (m + 1) ++ c :: tl = ' ' :: (sp m ++ c :: tl) := by
    rw [sp, List.replicate_succ, List.cons_append]
    rfl
  rw [h1, detectIndentGo, if_pos (by decide)]
  rw [show (' ' :: (sp m ++ c :: tl)) = sp (m + 1) ++ c :: tl from h1.symm,
    takeWhile_sp_stop (m + 1) c hc tl]

/-- A detected indent run is never empty (the regex group is `[ \t]+`). -/
theorem detectIndentGo_pos (t : List Char) : ∀ b l, detectIndentGo b t = some l → 0 < l.length := by
  induction t with
  | nil =>
    intro b l h
    rw [detectIndentGo] at h
    cases h
  | cons c rest ih =>
    intro b l h
    rw [detectIndentGo] at h
    by_cases hc : (b && isIndentWs c) = true
    · rw [if_pos hc] at h
      cases h
      have hcw : isIndentWs c = true := (Bool.and_eq_true_iff.mp hc).2
      simp [List.takeWhile_cons, hcw]
    · rw [if_neg hc] at h
      exact ih _ _ h

/-- Whatever the detected width `k ≥ 1`, the serialized nonempty object's first
line-leading whitespace run is exactly `k` SPACES. -/
theorem detectIndent_dumps (k : Nat) (hk : 1 ≤ k) (f : List Char × JVal)
    (fs : List (List Char × JVal)) :
    detectIndent (dumpsVal k 0 (.jobj (f :: fs)) ++ ['\n']) = some (sp k) := by
  obtain ⟨r, hr⟩ := dumpsFields_head k 1 f fs
  obtain ⟨m, hm⟩ : ∃ m, k = m + 1 := ⟨k - 1, by omega⟩
  subst hm
  have hd : dumpsVal (m + 1) 0 (.jobj (f :: fs)) ++ ['\n'] =
      '{' :: '\n' :: (sp (m + 1) ++ ('"' :: (r ++ ('\n' :: '}' :: ['\n'])))) := by
    rw [dumpsVal]
    simp [hr, sp, List.append_assoc]
  rw [hd, detectIndent, detectIndentGo_cons_no true '{' (by decide),
    show ('{' == '\n') = false from by decide,
    detectIndentGo_cons_no false '\n' (by decide),
    show ('\n' == '\n') = true from by decide,
    detectIndentGo_sp_stop m '"' (by decide)]

/-- C4 as stated is false on the code: only the LENGTH of the first
leading-whitespace run is fed to `json.dumps(indent=...)`, which always
indents with spaces.  A tab-indented manifest (style `"\t"`, width 1) is
rewritten indented by one SPACE, so the original indentation style is not
preserved. -/
theorem claim_C4_counterexample :
    (detectIndent "\x7b\n\t\"a\": 1\n\x7d".data = some ['\t'] ∧
      update_package_json "1.2.3".data "\x7b\n\t\"a\": 1\n\x7d".data =
        some (dumpsVal 1 0
          (.jobj [(['a'], .jnum 1), (versionKey, .jstr "1.2.3".data)]) ++ ['\n']) ∧
      detectIndent (dumpsVal 1 0
          (.jobj [(['a'], .jnum 1), (versionKey, .jstr "1.2.3".data)]) ++ ['\n']) =
        some [' ']) ∧
    some [' '] ≠ some ['\t'] := by
  refine ⟨⟨by decide, rfl, ?_⟩, by decide⟩
  rw [detectIndent_dumps 1 (by omega) (['a'], .jnum 1) [(versionKey, .jstr "1.2.3".data)]]
  rfl

/-- C4 (amended): the rewritten manifest ends with a newline, and is indented
by the WIDTH of the original file's first leading-whitespace run (two if none
exists), rendered as that many spaces regardless of the original characters. -/
theorem claim_C4_amended (v text out : List Char)
    (h : update_package_json v text = some out) :
    out.getLast? = some '\n' ∧
    detectIndent out = some (sp (((detectIndent text).map List.length).getD 2)) := by
  obtain ⟨fields, hp, hout⟩ := update_package_json_eq v text out h
  subst hout
  obtain ⟨f, fs, hins⟩ := insertKey_ne_nil fields versionKey (JVal.jstr v)
  refine ⟨List.getLast?_concat _, ?_⟩
  have hK1 : 1 ≤ ((detectIndent text).map List.length).getD 2 := by
    rcases hd : detectIndent text with _ | l
    · simp
    · rw [detectIndent] at hd
      have := detectIndentGo_pos text true l hd
      simp
      omega
  rw [hins, detectIndent_dumps _ hK1 f fs]

theorem claim_C4_witness :
    update_package_json "2.0.0".data "\x7b\n  \"a\": 1\n\x7d".data =
      some (dumpsVal 2 0
        (.jobj [(['a'], .jnum 1), (versionKey, .jstr "2.0.0".data)]) ++ ['\n']) ∧
    ((dumpsVal 2 0
        (.jobj [(['a'], .jnum 1), (versionKey, .jstr "2.0.0".data)]) ++ ['\n']).getLast? =
      some '\n' ∧
    detectIndent (dumpsVal 2 0
        (.jobj [(['a'], .jnum 1), (versionKey, .jstr "2.0.0".data)]) ++ ['\n']) =
      some (sp (((detectIndent "\x7b\n  \"a\": 1\n\x7d".data).map List.length).getD 2))) :=
  ⟨rfl, claim_C4_amended "2.0.0".data "\x7b\n  \"a\": 1\n\x7d".data _ rfl⟩

/-! ### Claim C3: well-formed values (the image of `dict` construction) -/

/-- Pairwise-distinct key list: what Python `dict`s guarantee. -/
def keysDistinct : List (List Char) → Bool
  | [] => true
  | k :: ks => (decide (k ∉ ks)) && keysDistinct ks

mutual
/-- A value all of whose objects have distinct keys — every `json.loads`
result is of this shape. -/
def wfJ : JVal → Bool
  | .jnull => true
  | .jbool _ => true
  | .jnum _ => true
  | .jstr _ => true
  | .jarr xs => wfList xs
  | .jobj fs => keysDistinct (fs.map Prod.fst) && wfFields fs
def wfList : List JVal → Bool
  | [] => true
  | x :: xs => wfJ x && wfList xs
def wfFields : List (List Char × JVal) → Bool
  | [] => true
  | f :: fs => wfJ f.2 && wfFields fs
end

theorem option_map_eq_some {α β : Type} (f : α → β) (o : Option α) (b : β)
    (h : o.map f = some b) : ∃ a, o = some a ∧ b = f a := by
  cases o with
  | none => cases h
  | some a => exact ⟨a, rfl, (Option.some_inj.mp h).symm⟩

theorem insertKey_append_of_not_mem {α : Type} (d : List (List Char × α)) (k : List Char)
    (v : α) (h : k ∉ d.map Prod.fst) : insertKey d k v = d ++ [(k, v)] := by
  induction d with
  | nil => rfl
  | cons p rest ih =>
    obtain ⟨k', v'⟩ := p
    have h1 : ¬(k = k' ∨ k ∈ rest.map Prod.fst) := fun hor =>
      h (by rw [List.map_cons]; exact List.mem_cons.mpr hor)
    rw [insertKey, if_neg (fun he => h1 (Or.inl he.symm)),
      ih (fun hm => h1 (Or.inr hm)), List.cons_append]

theorem foldl_insertKey_of_distinct (fs : List (List Char × JVal)) :
    ∀ acc, keysDistinct (fs.map Prod.fst) = true →
    (∀ p ∈ fs, p.1 ∉ acc.map Prod.fst) →
    fs.foldl (fun a p => insertKey a p.1 p.2) acc = acc ++ fs := by
  induction fs with
  | nil =>
    intro acc _ _
    rw [List.foldl_nil, List.append_nil]
  | cons p rest ih =>
    intro acc hd hdis
    obtain ⟨k, v⟩ := p
    rw [List.map_cons, keysDistinct] at hd
    have hd1 : (k, v).1 ∉ rest.map Prod.fst :=
      of_decide_eq_true (Bool.and_eq_true_iff.mp hd).1
    have hd2 := (Bool.and_eq_true_iff.mp hd).2
    rw [List.foldl_cons,
      insertKey_append_of_not_mem acc (k, v).1 (k, v).2 (hdis (k, v) (by simp)),
      ih (acc ++ [(k, v)]) hd2]
    · simp
    · intro q hq
      rw [List.map_append, List.mem_append]
      rintro (hqa | hqk)
      · exact hdis q (List.mem_cons_of_mem _ hq) hqa
      · simp at hqk
        have hmm := List.mem_map_of_mem Prod.fst hq
        rw [hqk] at hmm
        exact hd1 hmm

/-- On a distinct-keyed pair list, `dict` construction is the identity. -/
theorem dedupFields_of_distinct (fs : List (List Char × JVal))
    (h : keysDistinct (fs.map Prod.fst) = true) : dedupFields fs = fs := by
  rw [dedupFields, foldl_insertKey_of_distinct fs [] h (by intro p hp; simp),
    List.nil_append]

theorem keysDistinct_insertKey (d : List (List Char × JVal)) (k : List Char) (v : JVal)
    (h : keysDistinct (d.map Prod.fst) = true) :
    keysDistinct ((insertKey d k v).map Prod.fst) = true := by
  induction d with
  | nil => simp [insertKey, keysDistinct]
  | cons p rest ih =>
    obtain ⟨k', v'⟩ := p
    rw [List.map_cons, keysDistinct] at h
    have h1 : k' ∉ rest.map Prod.fst :=
      of_decide_eq_true (Bool.and_eq_true_iff.mp h).1
    have h2 := (Bool.and_eq_true_iff.mp h).2
    by_cases he : k' = k
    · rw [insertKey, if_pos he, List.map_cons, keysDistinct]
      rw [Bool.and_eq_true_iff]
      exact ⟨decide_eq_true h1, h2⟩
    · rw [insertKey, if_neg he, List.map_cons, keysDistinct, Bool.and_eq_true_iff]
      refine ⟨decide_eq_true ?_, ih h2⟩
      intro hm
      rcases insertKey_keys rest k v with hk | hk
      · rw [hk] at hm
        exact h1 hm
      · rw [hk, List.mem_append] at hm
        rcases hm with hm | hm
        · exact h1 hm
        · simp at hm
          exact he hm

theorem wfFields_cons_iff (f : List Char × JVal) (fs : List (List Char × JVal)) :
    wfFields (f :: fs) = true ↔ wfJ f.2 = true ∧ wfFields fs = true := by
  rw [wfFields, Bool.and_eq_true_iff]

theorem wfFields_insertKey (d : List (List Char × JVal)) (k : List Char) (v : JVal)
    (hd : wfFields d = true) (hv : wfJ v = true) :
    wfFields (insertKey d k v) = true := by
  induction d with
  | nil =>
    rw [insertKey, wfFields_cons_iff]
    exact ⟨hv, rfl⟩
  | cons p rest ih =>
    obtain ⟨k', v'⟩ := p
    rw [wfFields_cons_iff] at hd
    by_cases he : k' = k
    · rw [insertKey, if_pos he, wfFields_cons_iff]
      exact ⟨hv, hd.2⟩
    · rw [insertKey, if_neg he, wfFields_cons_iff]
      exact ⟨hd.1, ih hd.2⟩

theorem foldl_insertKey_distinct (fs : List (List Char × JVal)) :
    ∀ acc, keysDistinct (acc.map Prod.fst) = true →
    keysDistinct ((fs.foldl (fun a p => insertKey a p.1 p.2) acc).map Prod.fst) = true := by
  induction fs with
  | nil => intro acc h; exact h
  | cons p rest ih =>
    intro acc h
    rw [List.foldl_cons]
    exact ih _ (keysDistinct_insertKey acc p.1 p.2 h)

theorem dedupFields_distinct (fs : List (List Char × JVal)) :
    keysDistinct ((dedupFields fs).map Prod.fst) = true := by
  rw [dedupFields]
  exact foldl_insertKey_distinct fs [] rfl

theorem foldl_insertKey_wf (fs : List (List Char × JVal)) :
    ∀ acc, wfFields acc = true → (∀ p ∈ fs, wfJ p.2 = true) →
    wfFields (fs.foldl (fun a p => insertKey a p.1 p.2) acc) = true := by
  induction fs with
  | nil => intro acc h _; exact h
  | cons p rest ih =>
    intro acc h hall
    rw [List.foldl_cons]
    exact ih _ (wfFields_insertKey acc p.1 p.2 h (hall p (by simp)))
      (fun q hq => hall q (List.mem_cons_of_mem _ hq))

theorem dedupFields_wf (fs : List (List Char × JVal))
    (h : ∀ p ∈ fs, wfJ p.2 = true) : wfFields (dedupFields fs) = true := by
  rw [dedupFields]
  exact foldl_insertKey_wf fs [] rfl h

theorem wfFields_forall (fs : List (List Char × JVal)) (h : wfFields fs = true) :
    ∀ p ∈ fs, wfJ p.2 = true := by
  induction fs with
  | nil => intro p hp; cases hp
  | cons f rest ih =>
    rw [wfFields_cons_iff] at h
    intro p hp
    rcases List.mem_cons.mp hp with hp | hp
    · rw [hp]; exact h.1
    · exact ih h.2 p hp

/-- Every value the parser returns is well-formed: object keys are distinct
(`dict` construction deduplicates them). -/
theorem parse_wf : ∀ fuel : Nat,
    (∀ s j r, parseVal fuel s = some (j, r) → wfJ j = true) ∧
    (∀ s fs r, parseFieldsRest fuel s = some (fs, r) → wfFields fs = true) ∧
    (∀ s xs r, parseItemsRest fuel s = some (xs, r) → wfList xs = true) := by
  intro fuel
  induction fuel with
  | zero =>
    refine ⟨?_, ?_, ?_⟩
    · intro s j r h; rw [parseVal] at h; cases h
    · intro s fs r h; rw [parseFieldsRest] at h; cases h
    · intro s xs r h; rw [parseItemsRest] at h; cases h
  | succ fuel ih =>
    obtain ⟨ihV, ihF, ihI⟩ := ih
    refine ⟨?_, ?_, ?_⟩
    · intro s j r h
      rw [parseVal] at h
      split at h
      · cases h
      · split_ifs at h with h1 h2 h3 h4 h5 h6 h7
        · -- object branch
          split at h
          · cases Option.some_inj.mp h
            rw [wfJ]
            rfl
          · obtain ⟨⟨fs, r2⟩, hfs, hjr⟩ := option_map_eq_some _ _ _ h
            cases hjr
            rw [wfJ, Bool.and_eq_true_iff]
            exact ⟨dedupFields_distinct fs,
              dedupFields_wf fs (wfFields_forall fs (ihF _ fs r2 hfs))⟩
        · -- array branch
          split at h
          · cases Option.some_inj.mp h
            rw [wfJ]
            rfl
          · obtain ⟨⟨xs, r2⟩, hxs, hjr⟩ := option_map_eq_some _ _ _ h
            cases hjr
            rw [wfJ]
            exact ihI _ xs r2 hxs
        · -- string branch
          obtain ⟨⟨str, r2⟩, _, hjr⟩ := option_map_eq_some _ _ _ h
          cases hjr
          rw [wfJ]
        · split at h
          · cases Option.some_inj.mp h
            rw [wfJ]
          · cases h
        · split at h
          · cases Option.some_inj.mp h
            rw [wfJ]
          · cases h
        · split at h
          · cases Option.some_inj.mp h
            rw [wfJ]
          · cases h
        · obtain ⟨⟨n, r2⟩, _, hjr⟩ := option_map_eq_some _ _ _ h
          cases hjr
          rw [wfJ]
        · obtain ⟨⟨n, r2⟩, _, hjr⟩ := option_map_eq_some _ _ _ h
          cases hjr
          rw [wfJ]
    · intro s fs r h
      rw [parseFieldsRest] at h
      split at h
      case _ r1 _ =>
        split at h
        · cases h
        case _ key r2 =>
          split at h
          case _ r3 _ =>
            split at h
            · cases h
            case _ v r4 hv =>
              split at h
              case _ r5 _ =>
                obtain ⟨⟨gs, r6⟩, hgs, hjr⟩ := option_map_eq_some _ _ _ h
                cases hjr
                rw [wfFields_cons_iff]
                exact ⟨ihV _ v r4 hv, ihF _ gs r6 hgs⟩
              case _ r5 _ =>
                cases Option.some_inj.mp h
                rw [wfFields_cons_iff]
                exact ⟨ihV _ v r4 hv, rfl⟩
              case _ =>
                cases h
          case _ =>
            cases h
      case _ =>
        cases h
    · intro s xs r h
      rw [parseItemsRest] at h
      split at h
      · cases h
      case _ v r1 hv =>
        split at h
        case _ r2 _ =>
          obtain ⟨⟨ys, r3⟩, hys, hjr⟩ := option_map_eq_some _ _ _ h
          cases hjr
          rw [wfList, Bool.and_eq_true_iff]
          exact ⟨ihV _ v r1 hv, ihI _ ys r3 hys⟩
        case _ r2 _ =>
          cases Option.some_inj.mp h
          rw [wfList, Bool.and_eq_true_iff]
          exact ⟨ihV _ v r1 hv, rfl⟩
        case _ =>
          cases h

/-! ### Claim C3: round-trip helpers (whitespace, digits, strings, numbers) -/

theorem skipWs_cons_neg (c : Char) (hc : isJWs c = false) (l : List Char) :
    skipWs (c :: l) = c :: l := by
  simp [skipWs, List.dropWhile_cons, hc]

theorem skipWs_cons_pos (c : Char) (hc : isJWs c = true) (l : List Char) :
    skipWs (c :: l) = skipWs l := by
  simp [skipWs, List.dropWhile_cons, hc]

theorem sp_mem_jws (n : Nat) : ∀ c ∈ sp n, isJWs c = true := by
  intro c hc
  rw [sp] at hc
  rw [List.eq_of_mem_replicate hc]
  decide

theorem skipWs_sp (n : Nat) (l : List Char) : skipWs (sp n ++ l) = skipWs l := by
  rw [skipWs, dropWhile_append_all isJWs (sp n) l (sp_mem_jws n), skipWs]

/-- A digit starts no other token: not whitespace, not a bracket, quote,
keyword head, sign, separator or closer. -/
theorem digit_ne_starts (c : Char) (h : c.isDigit = true) :
    isJWs c = false ∧ c ≠ '{' ∧ c ≠ '[' ∧ c ≠ '"' ∧ c ≠ 't' ∧ c ≠ 'f' ∧
      c ≠ 'n' ∧ c ≠ '-' ∧ c ≠ '}' ∧ c ≠ ']' ∧ c ≠ ',' := by
  have hne : ∀ d : Char, d.isDigit = false → c ≠ d := by
    intro d hd he
    rw [he] at h
    rw [h] at hd
    cases hd
  refine ⟨?_, hne '{' (by decide), hne '[' (by decide), hne '"' (by decide),
    hne 't' (by decide), hne 'f' (by decide), hne 'n' (by decide),
    hne '-' (by decide), hne '}' (by decide), hne ']' (by decide),
    hne ',' (by decide)⟩
  rw [isJWs,
    beq_eq_false_iff_ne.mpr (hne ' ' (by decide)),
    beq_eq_false_iff_ne.mpr (hne '\t' (by decide)),
    beq_eq_false_iff_ne.mpr (hne '\n' (by decide)),
    beq_eq_false_iff_ne.mpr (hne '\r' (by decide))]
  rfl

theorem natToDigits_zero : natToDigits 0 = ['0'] := by decide

theorem natDigitsWF_head_ne_zero : ∀ n : Nat, 1 ≤ n → ∀ c t,
    natDigitsWF n = c :: t → c ≠ '0' := by
  intro n
  induction n using Nat.strong_induction_on with
  | _ n ih =>
    intro hn c t hct hc0
    rw [natDigitsWF] at hct
    by_cases h10 : n < 10
    · rw [dif_pos h10] at hct
      injection hct with hc ht
      rw [← hc] at hc0
      interval_cases n <;> exact absurd hc0 (by decide)
    · rw [dif_neg h10] at hct
      rcases hh : natDigitsWF (n / 10) with _ | ⟨c', t'⟩
      · have : natDigitsWF (n / 10) ≠ [] := by
          rw [natDigitsWF]
          split <;> simp
        exact this hh
      · rw [hh, List.cons_append] at hct
        injection hct with hc ht
        rw [← hc] at hc0
        exact ih (n / 10) (Nat.div_lt_self (by omega) (by omega)) (by omega) c' t' hh hc0

theorem parseNatNum_digits (n : Nat) (rest : List Char)
    (hrest : ∀ c, rest.head? = some c → c.isDigit = false) :
    parseNatNum (natToDigits n ++ rest) = some (n, rest) := by
  have htail_t : rest.takeWhile Char.isDigit = [] := by
    rcases hr : rest with _ | ⟨c, t⟩
    · rfl
    · have hc := hrest c (by rw [hr]; rfl)
      simp [List.takeWhile_cons, hc]
  have htail_d : rest.dropWhile Char.isDigit = rest := by
    rcases hr : rest with _ | ⟨c, t⟩
    · rfl
    · have hc := hrest c (by rw [hr]; rfl)
      simp [List.dropWhile_cons, hc]
  have htake : (natToDigits n ++ rest).takeWhile Char.isDigit = natToDigits n := by
    rw [takeWhile_append_all Char.isDigit _ rest (natToDigits_all_digit n), htail_t,
      List.append_nil]
  have hdrop : (natToDigits n ++ rest).dropWhile Char.isDigit = rest := by
    rw [dropWhile_append_all Char.isDigit _ rest (natToDigits_all_digit n), htail_d]
  rw [parseNatNum, htake, hdrop]
  rw [if_neg (by rw [List.isEmpty_iff]; exact natToDigits_ne_nil n)]
  rw [if_neg ?_, natOfDigits_natToDigits]
  rcases Nat.eq_zero_or_pos n with h0 | hpos
  · rw [h0, natToDigits_zero]
    rintro ⟨hlen, _⟩
    simp at hlen
  · rcases hnd : natToDigits n with _ | ⟨c, t⟩
    · exact absurd hnd (natToDigits_ne_nil n)
    · rintro ⟨_, hhead⟩
      have hnd' : natDigitsWF n = c :: t := by rw [← natToDigits_eq]; exact hnd
      have hne := natDigitsWF_head_ne_zero n hpos c t hnd'
      exact hne (Option.some_inj.mp hhead)

theorem hexVal_hexDigitChar (m : Nat) (h : m < 16) : hexVal (hexDigitChar m) = some m := by
  interval_cases m <;> decide

theorem parseStrBody_escape (c : Char) (rest : List Char) :
    parseStrBody (escapeChar c ++ rest) =
      (parseStrBody rest).map fun p => (c :: p.1, p.2) := by
  rw [escapeChar]
  split_ifs with h1 h2 h3 h4 h5 h6 h7 h8
  · subst h1
    rfl
  · subst h2
    rfl
  · subst h3
    rfl
  · subst h4
    rfl
  · subst h5
    rfl
  · subst h6
    rfl
  · subst h7
    rfl
  · simp only [List.cons_append, List.nil_append]
    rw [parseStrBody]
    rw [hexVal_hexDigitChar (c.toNat / 16) (by omega),
      hexVal_hexDigitChar (c.toNat % 16) (by omega),
      show hexVal '0' = some 0 from by decide]
    have harith : ((0 * 16 + 0) * 16 + c.toNat / 16) * 16 + c.toNat % 16 = c.toNat := by
      omega
    split
    · rename_i a b c' d ha hb hc' hd
      injection ha with ha
      injection hb with hb
      injection hc' with hc'
      injection hd with hd
      subst ha
      subst hb
      subst hc'
      subst hd
      rw [harith, if_pos (show c.toNat < 55296 from by omega), Char.ofNat_toNat]
    · rename_i hnm
      exact (hnm 0 0 (c.toNat / 16) (c.toNat % 16) rfl rfl rfl rfl).elim
  · simp only [List.cons_append, List.nil_append]
    rw [parseStrBody.eq_def]
    simp [h1, h2, h8]

theorem parseStrBody_escapeStr (s : List Char) (tail : List Char) :
    parseStrBody (escapeStr s ++ '"' :: tail) = some (s, tail) := by
  induction s with
  | nil => rfl
  | cons c r ih =>
    rw [escapeStr, List.append_assoc, parseStrBody_escape, ih]
    rfl

/-! ### Claim C3: shape and length facts about the serializer output -/

theorem skipWs_pre (pre : List Char) (hpre : ∀ c ∈ pre, isJWs c = true) (c : Char)
    (hc : isJWs c = false) (l : List Char) : skipWs (pre ++ c :: l) = c :: l := by
  rw [skipWs, dropWhile_append_all isJWs pre _ hpre]
  simp [List.dropWhile_cons, hc]

theorem head_cons_not_digit (c : Char) (hc : c.isDigit = false) (l : List Char) :
    ∀ d, (c :: l).head? = some d → d.isDigit = false := by
  intro d hd
  rw [show d = c from (Option.some_inj.mp hd).symm]
  exact hc

/-- A rendered value starts with a non-whitespace character that closes
nothing. -/
theorem dumpsVal_head (k lvl : Nat) (j : JVal) :
    ∃ c t, dumpsVal k lvl j = c :: t ∧ isJWs c = false ∧ c ≠ '}' ∧ c ≠ ']' := by
  cases j with
  | jnull => exact ⟨'n', "ull".data, by rw [dumpsVal], by decide, by decide, by decide⟩
  | jbool b =>
    cases b with
    | true => exact ⟨'t', "rue".data, by rw [dumpsVal], by decide, by decide, by decide⟩
    | false => exact ⟨'f', "alse".data, by rw [dumpsVal], by decide, by decide, by decide⟩
  | jstr s =>
    exact ⟨'"', escapeStr s ++ ['"'], by rw [dumpsVal, quoteStr], by decide, by decide,
      by decide⟩
  | jarr xs =>
    cases xs with
    | nil => exact ⟨'[', [']'], by rw [dumpsVal], by decide, by decide, by decide⟩
    | cons x xs =>
      exact ⟨'[', '\n' :: (sp (k * (lvl + 1)) ++ (dumpsItems k (lvl + 1) x xs ++
        ('\n' :: (sp (k * lvl) ++ [']'])))), by rw [dumpsVal], by decide, by decide,
        by decide⟩
  | jobj fs =>
    cases fs with
    | nil => exact ⟨'{', ['}'], by rw [dumpsVal], by decide, by decide, by decide⟩
    | cons f fs =>
      exact ⟨'{', '\n' :: (sp (k * (lvl + 1)) ++ (dumpsFields k (lvl + 1) f fs ++
        ('\n' :: (sp (k * lvl) ++ ['}'])))), by rw [dumpsVal], by decide, by decide,
        by decide⟩
  | jnum n =>
    by_cases hneg : n < 0
    · exact ⟨'-', natToDigits n.natAbs,
        by rw [dumpsVal, intRepr, if_pos hneg], by decide, by decide, by decide⟩
    · rcases hd : natToDigits n.natAbs with _ | ⟨c0, t0⟩
      · exact absurd hd (natToDigits_ne_nil _)
      · have hc0 : c0.isDigit = true :=
          natToDigits_all_digit n.natAbs c0 (by rw [hd]; exact List.mem_cons_self _ _)
        obtain ⟨hws, _, _, _, _, _, _, _, hbr, hbk, _⟩ := digit_ne_starts c0 hc0
        exact ⟨c0, t0, by rw [dumpsVal, intRepr, if_neg hneg, hd], hws, hbr, hbk⟩

theorem dumpsItems_head (k lvl : Nat) (x : JVal) (xs : List JVal) :
    ∃ c t, dumpsItems k lvl x xs = c :: t ∧ isJWs c = false ∧ c ≠ '}' ∧ c ≠ ']' := by
  obtain ⟨c, t, hct, h1, h2, h3⟩ := dumpsVal_head k lvl x
  cases xs with
  | nil => exact ⟨c, t, by rw [dumpsItems, hct], h1, h2, h3⟩
  | cons y ys =>
    exact ⟨c, t ++ (',' :: '\n' :: (sp (k * lvl) ++ dumpsItems k lvl y ys)),
      by rw [dumpsItems, hct, List.cons_append], h1, h2, h3⟩

theorem dumpsVal_obj_len (k lvl : Nat) (f : List Char × JVal)
    (fs : List (List Char × JVal)) :
    (dumpsFields k (lvl + 1) f fs).length + 4 ≤ (dumpsVal k lvl (.jobj (f :: fs))).length := by
  rw [dumpsVal]
  simp [sp]
  omega

theorem dumpsVal_arr_len (k lvl : Nat) (x : JVal) (xs : List JVal) :
    (dumpsItems k (lvl + 1) x xs).length + 4 ≤ (dumpsVal k lvl (.jarr (x :: xs))).length := by
  rw [dumpsVal]
  simp [sp]
  omega

theorem dumpsFields_val_len (k lvl : Nat) (f : List Char × JVal)
    (fs : List (List Char × JVal)) :
    (dumpsVal k lvl f.2).length + 4 ≤ (dumpsFields k lvl f fs).length := by
  cases fs with
  | nil =>
    rw [dumpsFields]
    simp [quoteStr]
  | cons g gs =>
    rw [dumpsFields]
    simp [quoteStr, sp]
    omega

theorem dumpsFields_tail_len (k lvl : Nat) (f g : List Char × JVal)
    (gs : List (List Char × JVal)) :
    (dumpsFields k lvl g gs).length + 2 ≤ (dumpsFields k lvl f (g :: gs)).length := by
  rw [dumpsFields]
  simp [quoteStr, sp]
  omega

theorem dumpsItems_val_len (k lvl : Nat) (x : JVal) (xs : List JVal) :
    (dumpsVal k lvl x).length ≤ (dumpsItems k lvl x xs).length := by
  cases xs with
  | nil =>
    rw [dumpsItems]
  | cons y ys =>
    rw [dumpsItems]
    simp

theorem dumpsItems_tail_len (k lvl : Nat) (x y : JVal) (ys : List JVal) :
    (dumpsItems k lvl y ys).length + 2 ≤ (dumpsItems k lvl x (y :: ys)).length := by
  rw [dumpsItems]
  simp [sp]
  omega

/-! ### Claim C3: the parse/serialize round trip -/

theorem wfList_cons_iff (x : JVal) (xs : List JVal) :
    wfList (x :: xs) = true ↔ wfJ x = true ∧ wfList xs = true := by
  rw [wfList, Bool.and_eq_true_iff]

theorem cons_nl_sp_ws (m : Nat) : ∀ c ∈ '\n' :: sp m, isJWs c = true := by
  intro c hc
  rcases List.mem_cons.mp hc with h | h
  · rw [h]
    decide
  · exact sp_mem_jws m c h

theorem single_sp_ws : ∀ c ∈ [' '], isJWs c = true := by
  intro c hc
  rw [List.mem_singleton.mp hc]
  decide

theorem parseVal_digit_dispatch (fuel : Nat) (pre : List Char)
    (hpre : ∀ c ∈ pre, isJWs c = true) (c0 : Char) (T : List Char)
    (hws : isJWs c0 = false) (h1 : c0 ≠ '{') (h2 : c0 ≠ '[') (h3 : c0 ≠ '"')
    (h4 : c0 ≠ 't') (h5 : c0 ≠ 'f') (h6 : c0 ≠ 'n') (h7 : c0 ≠ '-') :
    parseVal (fuel + 1) (pre ++ c0 :: T) =
      (parseNatNum (c0 :: T)).map fun p => (JVal.jnum (p.1 : Int), p.2) := by
  rw [parseVal, skipWs_pre pre hpre c0 hws]
  simp [h1, h2, h3, h4, h5, h6, h7]

mutual

theorem rt_val : ∀ (j : JVal) (k lvl fuel : Nat) (pre rest : List Char),
    wfJ j = true → (∀ c ∈ pre, isJWs c = true) →
    (dumpsVal k lvl j).length < fuel →
    (∀ c, rest.head? = some c → c.isDigit = false) →
    parseVal fuel (pre ++ (dumpsVal k lvl j ++ rest)) = some (j, rest)
  | .jnull, k, lvl, fuel, pre, rest, _, hpre, hf, _ => by
    cases fuel with
    | zero => omega
    | succ fu =>
      have harg : pre ++ (dumpsVal k lvl .jnull ++ rest) =
          pre ++ 'n' :: ('u' :: 'l' :: 'l' :: rest) := by rw [dumpsVal]; rfl
      rw [harg, parseVal, skipWs_pre pre hpre 'n' (by decide)]
      rfl
  | .jbool true, k, lvl, fuel, pre, rest, _, hpre, hf, _ => by
    cases fuel with
    | zero => omega
    | succ fu =>
      have harg : pre ++ (dumpsVal k lvl (.jbool true) ++ rest) =
          pre ++ 't' :: ('r' :: 'u' :: 'e' :: rest) := by rw [dumpsVal]; rfl
      rw [harg, parseVal, skipWs_pre pre hpre 't' (by decide)]
      rfl
  | .jbool false, k, lvl, fuel, pre, rest, _, hpre, hf, _ => by
    cases fuel with
    | zero => omega
    | succ fu =>
      have harg : pre ++ (dumpsVal k lvl (.jbool false) ++ rest) =
          pre ++ 'f' :: ('a' :: 'l' :: 's' :: 'e' :: rest) := by rw [dumpsVal]; rfl
      rw [harg, parseVal, skipWs_pre pre hpre 'f' (by decide)]
      rfl
  | .jnum n, k, lvl, fuel, pre, rest, _, hpre, hf, hrest => by
    cases fuel with
    | zero => omega
    | succ fu =>
      by_cases hneg : n < 0
      · have harg : pre ++ (dumpsVal k lvl (.jnum n) ++ rest) =
            pre ++ '-' :: (natToDigits n.natAbs ++ rest) := by
          rw [dumpsVal, intRepr, if_pos hneg]
          rfl
        rw [harg, parseVal, skipWs_pre pre hpre '-' (by decide)]
        show (parseNatNum (natToDigits n.natAbs ++ rest)).map
            (fun p => (JVal.jnum (-(p.1 : Int)), p.2)) = some (.jnum n, rest)
        rw [parseNatNum_digits n.natAbs rest hrest]
        show some (JVal.jnum (-((n.natAbs : Nat) : Int)), rest) = some (.jnum n, rest)
        rw [show -((n.natAbs : Nat) : Int) = n from by omega]
      · rcases hd : natToDigits n.natAbs with _ | ⟨c0, t0⟩
        · exact absurd hd (natToDigits_ne_nil _)
        · have hc0 : c0.isDigit = true :=
            natToDigits_all_digit n.natAbs c0 (by rw [hd]; exact List.mem_cons_self _ _)
          obtain ⟨hws, hb1, hb2, hb3, hb4, hb5, hb6, hb7, _, _, _⟩ := digit_ne_starts c0 hc0
          have harg : pre ++ (dumpsVal k lvl (.jnum n) ++ rest) =
              pre ++ c0 :: (t0 ++ rest) := by
            rw [dumpsVal, intRepr, if_neg hneg, hd, List.cons_append]
          rw [harg, parseVal_digit_dispatch fu pre hpre c0 (t0 ++ rest) hws hb1 hb2 hb3
            hb4 hb5 hb6 hb7,
            show c0 :: (t0 ++ rest) = natToDigits n.natAbs ++ rest from by
              rw [hd, List.cons_append],
            parseNatNum_digits n.natAbs rest hrest]
          show some (JVal.jnum ((n.natAbs : Nat) : Int), rest) = some (.jnum n, rest)
          rw [show ((n.natAbs : Nat) : Int) = n from by omega]
  | .jstr s, k, lvl, fuel, pre, rest, _, hpre, hf, _ => by
    cases fuel with
    | zero => omega
    | succ fu =>
      have harg : pre ++ (dumpsVal k lvl (.jstr s) ++ rest) =
          pre ++ '"' :: (escapeStr s ++ '"' :: rest) := by
        rw [dumpsVal, quoteStr]
        simp
      rw [harg, parseVal, skipWs_pre pre hpre '"' (by decide)]
      show (parseStrBody (escapeStr s ++ '"' :: rest)).map (fun p => (JVal.jstr p.1, p.2)) =
        some (.jstr s, rest)
      rw [parseStrBody_escapeStr]
      rfl
  | .jarr [], k, lvl, fuel, pre, rest, _, hpre, hf, _ => by
    cases fuel with
    | zero => omega
    | succ fu =>
      have harg : pre ++ (dumpsVal k lvl (.jarr []) ++ rest) =
          pre ++ '[' :: (']' :: rest) := by rw [dumpsVal]; rfl
      rw [harg, parseVal, skipWs_pre pre hpre '[' (by decide)]
      show (match skipWs (']' :: rest) with
        | ']' :: r2 => some (JVal.jarr [], r2)
        | _ => (parseItemsRest fu (']' :: rest)).map fun p => (JVal.jarr p.1, p.2)) =
        some (.jarr [], rest)
      rw [skipWs_cons_neg ']' (by decide)]
      rfl
  | .jarr (x :: xs), k, lvl, fuel, pre, rest, hw, hpre, hf, _ => by
    cases fuel with
    | zero => omega
    | succ fu =>
      rw [wfJ] at hw
      have hfi : (dumpsItems k (lvl + 1) x xs).length + 1 < fu := by
        have := dumpsVal_arr_len k lvl x xs
        omega
      have harg : pre ++ (dumpsVal k lvl (.jarr (x :: xs)) ++ rest) =
          pre ++ '[' :: (('\n' :: sp (k * (lvl + 1))) ++ (dumpsItems k (lvl + 1) x xs ++
            ('\n' :: (sp (k * lvl) ++ (']' :: rest))))) := by
        rw [dumpsVal]
        simp [List.append_assoc]
      obtain ⟨c0, t0, hit, hitws, _, hitbk⟩ := dumpsItems_head k (lvl + 1) x xs
      have hsk : skipWs (('\n' :: sp (k * (lvl + 1))) ++ (dumpsItems k (lvl + 1) x xs ++
          ('\n' :: (sp (k * lvl) ++ (']' :: rest))))) =
          c0 :: (t0 ++ ('\n' :: (sp (k * lvl) ++ (']' :: rest)))) := by
        rw [List.cons_append, skipWs_cons_pos '\n' (by decide), skipWs_sp, hit,
          List.cons_append, skipWs_cons_neg c0 hitws]
      rw [harg, parseVal, skipWs_pre pre hpre '[' (by decide)]
      show (match skipWs (('\n' :: sp (k * (lvl + 1))) ++ (dumpsItems k (lvl + 1) x xs ++
          ('\n' :: (sp (k * lvl) ++ (']' :: rest))))) with
        | ']' :: r2 => some (JVal.jarr [], r2)
        | _ => (parseItemsRest fu (('\n' :: sp (k * (lvl + 1))) ++
            (dumpsItems k (lvl + 1) x xs ++
              ('\n' :: (sp (k * lvl) ++ (']' :: rest)))))).map
            fun p => (JVal.jarr p.1, p.2)) = some (.jarr (x :: xs), rest)
      rw [hsk]
      split
      · rename_i r2 heq
        injection heq with heq1 _
        exact absurd heq1 hitbk
      · have hitems : parseItemsRest fu (('\n' :: sp (k * (lvl + 1))) ++
            (dumpsItems k (lvl + 1) x xs ++ ('\n' :: (sp (k * lvl) ++ (']' :: rest))))) =
            some (x :: xs, rest) :=
          rt_items x xs k (lvl + 1) fu ('\n' :: sp (k * (lvl + 1))) (sp (k * lvl)) rest hw
            (cons_nl_sp_ws _) (sp_mem_jws _) hfi
        rw [hitems]
        rfl
  | .jobj [], k, lvl, fuel, pre, rest, _, hpre, hf, _ => by
    cases fuel with
    | zero => omega
    | succ fu =>
      have harg : pre ++ (dumpsVal k lvl (.jobj []) ++ rest) =
          pre ++ '{' :: ('}' :: rest) := by rw [dumpsVal]; rfl
      rw [harg, parseVal, skipWs_pre pre hpre '{' (by decide)]
      show (match skipWs ('}' :: rest) with
        | '}' :: r2 => some (JVal.jobj [], r2)
        | _ => (parseFieldsRest fu ('}' :: rest)).map
            fun p => (JVal.jobj (dedupFields p.1), p.2)) = some (.jobj [], rest)
      rw [skipWs_cons_neg '}' (by decide)]
      rfl
  | .jobj (f :: fs), k, lvl, fuel, pre, rest, hw, hpre, hf, _ => by
    cases fuel with
    | zero => omega
    | succ fu =>
      rw [wfJ, Bool.and_eq_true_iff] at hw
      have hfi : (dumpsFields k (lvl + 1) f fs).length + 1 < fu := by
        have := dumpsVal_obj_len k lvl f fs
        omega
      have harg : pre ++ (dumpsVal k lvl (.jobj (f :: fs)) ++ rest) =
          pre ++ '{' :: (('\n' :: sp (k * (lvl + 1))) ++ (dumpsFields k (lvl + 1) f fs ++
            ('\n' :: (sp (k * lvl) ++ ('}' :: rest))))) := by
        rw [dumpsVal]
        simp [List.append_assoc]
      obtain ⟨r, hr⟩ := dumpsFields_head k (lvl + 1) f fs
      have hsk : skipWs (('\n' :: sp (k * (lvl + 1))) ++ (dumpsFields k (lvl + 1) f fs ++
          ('\n' :: (sp (k * lvl) ++ ('}' :: rest))))) =
          '"' :: (r ++ ('\n' :: (sp (k * lvl) ++ ('}' :: rest)))) := by
        rw [List.cons_append, skipWs_cons_pos '\n' (by decide), skipWs_sp, hr,
          List.cons_append, skipWs_cons_neg '"' (by decide)]
      rw [harg, parseVal, skipWs_pre pre hpre '{' (by decide)]
      show (match skipWs (('\n' :: sp (k * (lvl + 1))) ++ (dumpsFields k (lvl + 1) f fs ++
          ('\n' :: (sp (k * lvl) ++ ('}' :: rest))))) with
        | '}' :: r2 => some (JVal.jobj [], r2)
        | _ => (parseFieldsRest fu (('\n' :: sp (k * (lvl + 1))) ++
            (dumpsFields k (lvl + 1) f fs ++
              ('\n' :: (sp (k * lvl) ++ ('}' :: rest)))))).map
            fun p => (JVal.jobj (dedupFields p.1), p.2)) = some (.jobj (f :: fs), rest)
      rw [hsk]
      have hflds : parseFieldsRest fu (('\n' :: sp (k * (lvl + 1))) ++
          (dumpsFields k (lvl + 1) f fs ++ ('\n' :: (sp (k * lvl) ++ ('}' :: rest))))) =
          some (f :: fs, rest) :=
        rt_fields f fs k (lvl + 1) fu ('\n' :: sp (k * (lvl + 1))) (sp (k * lvl)) rest hw.2
          (cons_nl_sp_ws _) (sp_mem_jws _) hfi
      show (parseFieldsRest fu (('\n' :: sp (k * (lvl + 1))) ++
          (dumpsFields k (lvl + 1) f fs ++ ('\n' :: (sp (k * lvl) ++ ('}' :: rest)))))).map
          (fun p => (JVal.jobj (dedupFields p.1), p.2)) = some (.jobj (f :: fs), rest)
      rw [hflds]
      show some (JVal.jobj (dedupFields (f :: fs)), rest) = some (.jobj (f :: fs), rest)
      rw [dedupFields_of_distinct (f :: fs) hw.1]
  termination_by j _ _ _ _ _ _ _ _ _ => sizeOf j

theorem rt_fields : ∀ (f : List Char × JVal) (fs : List (List Char × JVal))
    (k lvl fuel : Nat) (pre mid rest : List Char),
    wfFields (f :: fs) = true → (∀ c ∈ pre, isJWs c = true) →
    (∀ c ∈ mid, isJWs c = true) →
    (dumpsFields k lvl f fs).length + 1 < fuel →
    parseFieldsRest fuel (pre ++ (dumpsFields k lvl f fs ++
      ('\n' :: (mid ++ ('}' :: rest))))) = some (f :: fs, rest)
  | (key, val), [], k, lvl, fuel, pre, mid, rest, hw, hpre, hmid, hf => by
    cases fuel with
    | zero => omega
    | succ fu =>
      rw [wfFields_cons_iff] at hw
      have hfv : (dumpsVal k lvl val).length < fu := by
        have h4 := dumpsFields_val_len k lvl (key, val) []
        simp at h4
        omega
      have harg : pre ++ (dumpsFields k lvl (key, val) [] ++
          ('\n' :: (mid ++ ('}' :: rest)))) =
          pre ++ '"' :: (escapeStr key ++ '"' :: (':' :: ' ' ::
            (dumpsVal k lvl val ++ ('\n' :: (mid ++ ('}' :: rest)))))) := by
        rw [dumpsFields, quoteStr]
        simp [List.append_assoc]
      have hkey := parseStrBody_escapeStr key
        (':' :: ' ' :: (dumpsVal k lvl val ++ ('\n' :: (mid ++ ('}' :: rest)))))
      have hval : parseVal fu (' ' :: (dumpsVal k lvl val ++
          ('\n' :: (mid ++ ('}' :: rest))))) =
          some (val, '\n' :: (mid ++ ('}' :: rest))) :=
        rt_val val k lvl fu [' '] ('\n' :: (mid ++ ('}' :: rest))) hw.1 single_sp_ws hfv
          (head_cons_not_digit '\n' (by decide) _)
      have hsep : skipWs ('\n' :: (mid ++ ('}' :: rest))) = '}' :: rest := by
        rw [skipWs_cons_pos '\n' (by decide), skipWs_pre mid hmid '}' (by decide)]
      rw [harg, parseFieldsRest, skipWs_pre pre hpre '"' (by decide)]
      simp only [hkey, skipWs_cons_neg ':' (by decide), hval, hsep]
  | (key, val), g :: gs, k, lvl, fuel, pre, mid, rest, hw, hpre, hmid, hf => by
    cases fuel with
    | zero => omega
    | succ fu =>
      rw [wfFields_cons_iff] at hw
      have hfv : (dumpsVal k lvl val).length < fu := by
        have h4 := dumpsFields_val_len k lvl (key, val) (g :: gs)
        simp at h4
        omega
      have hfg : (dumpsFields k lvl g gs).length + 1 < fu := by
        have h4 := dumpsFields_tail_len k lvl (key, val) g gs
        omega
      have harg : pre ++ (dumpsFields k lvl (key, val) (g :: gs) ++
          ('\n' :: (mid ++ ('}' :: rest)))) =
          pre ++ '"' :: (escapeStr key ++ '"' :: (':' :: ' ' ::
            (dumpsVal k lvl val ++ (',' :: ('\n' :: (sp (k * lvl) ++
              (dumpsFields k lvl g gs ++ ('\n' :: (mid ++ ('}' :: rest)))))))))) := by
        rw [dumpsFields, quoteStr]
        simp [List.append_assoc]
      have hkey := parseStrBody_escapeStr key
        (':' :: ' ' :: (dumpsVal k lvl val ++ (',' :: ('\n' :: (sp (k * lvl) ++
          (dumpsFields k lvl g gs ++ ('\n' :: (mid ++ ('}' :: rest)))))))))
      have hval : parseVal fu (' ' :: (dumpsVal k lvl val ++ (',' :: ('\n' ::
          (sp (k * lvl) ++ (dumpsFields k lvl g gs ++
            ('\n' :: (mid ++ ('}' :: rest))))))))) =
          some (val, ',' :: ('\n' :: (sp (k * lvl) ++ (dumpsFields k lvl g gs ++
            ('\n' :: (mid ++ ('}' :: rest))))))) :=
        rt_val val k lvl fu [' '] (',' :: ('\n' :: (sp (k * lvl) ++
          (dumpsFields k lvl g gs ++ ('\n' :: (mid ++ ('}' :: rest))))))) hw.1
          single_sp_ws hfv (head_cons_not_digit ',' (by decide) _)
      have hrec : parseFieldsRest fu ('\n' :: (sp (k * lvl) ++ (dumpsFields k lvl g gs ++
          ('\n' :: (mid ++ ('}' :: rest)))))) = some (g :: gs, rest) :=
        rt_fields g gs k lvl fu ('\n' :: sp (k * lvl)) mid rest hw.2 (cons_nl_sp_ws _)
          hmid hfg
      rw [harg, parseFieldsRest, skipWs_pre pre hpre '"' (by decide)]
      simp only [hkey, skipWs_cons_neg ':' (by decide), hval,
        skipWs_cons_neg ',' (by decide), hrec]
      rfl
  termination_by f fs _ _ _ _ _ _ _ _ _ _ => sizeOf f + sizeOf fs

theorem rt_items : ∀ (x : JVal) (xs : List JVal) (k lvl fuel : Nat)
    (pre mid rest : List Char),
    wfList (x :: xs) = true → (∀ c ∈ pre, isJWs c = true) →
    (∀ c ∈ mid, isJWs c = true) →
    (dumpsItems k lvl x xs).length + 1 < fuel →
    parseItemsRest fuel (pre ++ (dumpsItems k lvl x xs ++
      ('\n' :: (mid ++ (']' :: rest))))) = some (x :: xs, rest)
  | x, [], k, lvl, fuel, pre, mid, rest, hw, hpre, hmid, hf => by
    cases fuel with
    | zero => omega
    | succ fu =>
      rw [wfList_cons_iff] at hw
      have hfx : (dumpsVal k lvl x).length < fu := by
        have h4 : dumpsItems k lvl x [] = dumpsVal k lvl x := by rw [dumpsItems]
        rw [h4] at hf
        omega
      have harg : pre ++ (dumpsItems k lvl x [] ++ ('\n' :: (mid ++ (']' :: rest)))) =
          pre ++ (dumpsVal k lvl x ++ ('\n' :: (mid ++ (']' :: rest)))) := by
        rw [dumpsItems]
      have hv : parseVal fu (pre ++ (dumpsVal k lvl x ++
          ('\n' :: (mid ++ (']' :: rest))))) = some (x, '\n' :: (mid ++ (']' :: rest))) :=
        rt_val x k lvl fu pre ('\n' :: (mid ++ (']' :: rest))) hw.1 hpre hfx
          (head_cons_not_digit '\n' (by decide) _)
      have hsep : skipWs ('\n' :: (mid ++ (']' :: rest))) = ']' :: rest := by
        rw [skipWs_cons_pos '\n' (by decide), skipWs_pre mid hmid ']' (by decide)]
      rw [harg, parseItemsRest]
      simp only [hv, hsep]
  | x, y :: ys, k, lvl, fuel, pre, mid, rest, hw, hpre, hmid, hf => by
    cases fuel with
    | zero => omega
    | succ fu =>
      rw [wfList_cons_iff] at hw
      have hfx : (dumpsVal k lvl x).length < fu := by
        have h4 := dumpsItems_val_len k lvl x (y :: ys)
        omega
      have hfy : (dumpsItems k lvl y ys).length + 1 < fu := by
        have h4 := dumpsItems_tail_len k lvl x y ys
        omega
      have harg : pre ++ (dumpsItems k lvl x (y :: ys) ++
          ('\n' :: (mid ++ (']' :: rest)))) =
          pre ++ (dumpsVal k lvl x ++ (',' :: ('\n' :: (sp (k * lvl) ++
            (dumpsItems k lvl y ys ++ ('\n' :: (mid ++ (']' :: rest)))))))) := by
        rw [dumpsItems]
        simp [List.append_assoc]
      have hv : parseVal fu (pre ++ (dumpsVal k lvl x ++ (',' :: ('\n' ::
          (sp (k * lvl) ++ (dumpsItems k lvl y ys ++
            ('\n' :: (mid ++ (']' :: rest))))))))) =
          some (x, ',' :: ('\n' :: (sp (k * lvl) ++ (dumpsItems k lvl y ys ++
            ('\n' :: (mid ++ (']' :: rest))))))) :=
        rt_val x k lvl fu pre (',' :: ('\n' :: (sp (k * lvl) ++
          (dumpsItems k lvl y ys ++ ('\n' :: (mid ++ (']' :: rest))))))) hw.1 hpre hfx
          (head_cons_not_digit ',' (by decide) _)
      have hrec : parseItemsRest fu ('\n' :: (sp (k * lvl) ++ (dumpsItems k lvl y ys ++
          ('\n' :: (mid ++ (']' :: rest)))))) = some (y :: ys, rest) :=
        rt_items y ys k lvl fu ('\n' :: sp (k * lvl)) mid rest hw.2 (cons_nl_sp_ws _)
          hmid hfy
      rw [harg, parseItemsRest]
      simp only [hv, skipWs_cons_neg ',' (by decide), hrec]
      rfl
  termination_by x xs _ _ _ _ _ _ _ _ _ _ => sizeOf x + sizeOf xs

end


/-- The document-level round trip: re-parsing the serializer's output (with its
trailing newline) recovers the exact value, for any indent width. -/
theorem jparse_dumps (k : Nat) (j : JVal) (hw : wfJ j = true) :
    jparse (dumpsVal k 0 j ++ ['\n']) = some j := by
  have hv : parseVal ((dumpsVal k 0 j ++ ['\n']).length + 1)
      (dumpsVal k 0 j ++ ['\n']) = some (j, ['\n']) :=
    rt_val j k 0 ((dumpsVal k 0 j ++ ['\n']).length + 1) [] ('\n' :: []) hw
      (by intro c hc; cases hc) (by simp; omega)
      (head_cons_not_digit '\n' (by decide) [])
  rw [jparse, hv]
  rfl

/-- Everything `json.loads` returns is well-formed. -/
theorem jparse_wf (t : List Char) (j : JVal) (h : jparse t = some j) : wfJ j = true := by
  rw [jparse] at h
  rcases hv : parseVal (t.length + 1) t with _ | ⟨jj, r⟩
  · rw [hv] at h
    cases h
  · rw [hv] at h
    have h2 : (if (skipWs r).isEmpty = true then some jj else none) = some j := h
    split_ifs at h2 with hie
    · have hje : jj = j := Option.some_inj.mp h2
      subst hje
      exact (parse_wf (t.length + 1)).1 t jj r hv

/-- C3: on an existing manifest whose text parses to a JSON object, a
successful bump writes back a document that parses to the same object with only
the `version` key overwritten: the version field now holds the supplied string,
every other key keeps its value, and the key order is unchanged (with `version`
appended at the end only when it was absent). -/
theorem claim_C3 (v text out : List Char) (fields : List (List Char × JVal))
    (h : update_package_json v text = some out)
    (hp : jparse text = some (.jobj fields)) :
    jparse out = some (.jobj (insertKey fields versionKey (.jstr v))) ∧
    lookupKey (insertKey fields versionKey (.jstr v)) versionKey = some (.jstr v) ∧
    (∀ q, q ≠ versionKey →
      lookupKey (insertKey fields versionKey (.jstr v)) q = lookupKey fields q) ∧
    ((insertKey fields versionKey (.jstr v)).map Prod.fst = fields.map Prod.fst ∨
      (insertKey fields versionKey (.jstr v)).map Prod.fst =
        fields.map Prod.fst ++ [versionKey]) := by
  obtain ⟨fields0, hp0, hout⟩ := update_package_json_eq v text out h
  rw [hp] at hp0
  have hje : JVal.jobj fields = JVal.jobj fields0 := Option.some_inj.mp hp0
  injection hje with hfe
  subst hfe
  subst hout
  have hwf : wfJ (.jobj fields) = true := jparse_wf text _ hp
  rw [wfJ, Bool.and_eq_true_iff] at hwf
  have hwf' : wfJ (.jobj (insertKey fields versionKey (.jstr v))) = true := by
    rw [wfJ, Bool.and_eq_true_iff]
    exact ⟨keysDistinct_insertKey fields versionKey _ hwf.1,
      wfFields_insertKey fields versionKey _ hwf.2 (by rw [wfJ])⟩
  exact ⟨jparse_dumps _ _ hwf',
    lookupKey_insertKey_self fields versionKey _,
    fun q hq => lookupKey_insertKey_other fields versionKey q _ (Ne.symm hq),
    insertKey_keys fields versionKey _⟩

theorem claim_C3_witness :
    update_package_json "2.0.0".data "\x7b\n  \"b\": true\n\x7d".data =
      some (dumpsVal 2 0
        (JVal.jobj [(['b'], JVal.jbool true), (versionKey, .jstr "2.0.0".data)]) ++ ['\n']) ∧
    jparse "\x7b\n  \"b\": true\n\x7d".data = some (JVal.jobj [(['b'], JVal.jbool true)]) ∧
    (jparse (dumpsVal 2 0
        (JVal.jobj [(['b'], JVal.jbool true), (versionKey, .jstr "2.0.0".data)]) ++ ['\n']) =
      some (JVal.jobj (insertKey [(['b'], JVal.jbool true)] versionKey (JVal.jstr "2.0.0".data))) ∧
    lookupKey (insertKey [(['b'], JVal.jbool true)] versionKey (JVal.jstr "2.0.0".data))
        versionKey = some (JVal.jstr "2.0.0".data) ∧
    (∀ q, q ≠ versionKey →
      lookupKey (insertKey [(['b'], JVal.jbool true)] versionKey (JVal.jstr "2.0.0".data)) q =
        lookupKey [(['b'], JVal.jbool true)] q) ∧
    ((insertKey [(['b'], JVal.jbool true)] versionKey (JVal.jstr "2.0.0".data)).map Prod.fst =
        [(['b'], JVal.jbool true)].map Prod.fst ∨
      (insertKey [(['b'], JVal.jbool true)] versionKey (JVal.jstr "2.0.0".data)).map Prod.fst =
        [(['b'], JVal.jbool true)].map Prod.fst ++ [versionKey])) :=
  ⟨rfl, rfl, claim_C3 "2.0.0".data "\x7b\n  \"b\": true\n\x7d".data
    (dumpsVal 2 0 (JVal.jobj [(['b'], JVal.jbool true), (versionKey, .jstr "2.0.0".data)]) ++
      ['\n'])
    [(['b'], JVal.jbool true)] rfl rfl⟩

end Colota
